import Mathlib

/-!
Verification of the text-to-question parser (src/parser.py) of the Tele-quiz-bot
repository.  Strings are modelled as `List Char` in logical order.  The Python
regular expressions of the source are embedded as explicit character scanners
with Python `re` semantics (greedy classes, leftmost match, multiline anchors,
non-overlapping `finditer`, backtracking where it is observable).

Character repertoire.  Python string and regex operations are Unicode wide;
this development models their action on the repertoire actually reachable in
this program and its scenarios: ASCII, the control/space characters listed in
`isSp`, the no-break space U+00A0, the zero-width space U+200B, the Arabic
letter block U+0621..U+064A, the Arabic-Indic digits U+0660..U+0669, the mark
glyphs U+2713/U+2714/U+2705/U+2022, the letter e-acute U+00E9 and the combining
acute accent U+0301.  On this repertoire the library call
`unicodedata.normalize("NFKC", ...)` acts exactly as `nfkc` below: it rewrites
the no-break space to a plain space and performs the canonical composition of
"e" followed by a combining acute accent (blocked, as in Unicode, by any
intervening character); every other character of the repertoire is NFKC-stable
and takes part in no composition.
-/

/-- Strings of the Python source, in logical character order. -/
abbrev Str := List Char

/-- Shorthand turning a Lean string literal into the `List Char` model. -/
def toL (s : String) : Str := s.data

/-- Python whitespace (`str.isspace`, `str.strip`, and the `re` class `\s`),
restricted to the modelled repertoire: space, tab, LF, VT, FF, CR, NEL U+0085,
no-break space U+00A0, and the separators U+2028/U+2029. -/
def isSp (c : Char) : Bool :=
  c.toNat = 32 || c.toNat = 9 || c.toNat = 10 || c.toNat = 11 ||
  c.toNat = 12 || c.toNat = 13 || c.toNat = 0x85 || c.toNat = 0xa0 ||
  c.toNat = 0x2028 || c.toNat = 0x2029

/-- The `re` class `\d` (Unicode decimal digits) on the modelled repertoire:
ASCII digits and the Arabic-Indic digits U+0660..U+0669. -/
def isDig (c : Char) : Bool :=
  (48 ≤ c.toNat && c.toNat ≤ 57) || (0x660 ≤ c.toNat && c.toNat ≤ 0x669)

/-- The `re` word characters (`\w`, deciding `\b`) on the modelled repertoire:
ASCII alphanumerics and underscore, the Arabic letters U+0621..U+064A, the
Arabic-Indic digits, and e-acute U+00E9. -/
def isWordChar (c : Char) : Bool :=
  (48 ≤ c.toNat && c.toNat ≤ 57) || (65 ≤ c.toNat && c.toNat ≤ 90) ||
  (97 ≤ c.toNat && c.toNat ≤ 122) || c.toNat = 95 ||
  (0x621 ≤ c.toNat && c.toNat ≤ 0x64a) ||
  (0x660 ≤ c.toNat && c.toNat ≤ 0x669) || c.toNat = 0xe9

/-- ASCII lower-casing, the effect of `str.lower`/`re.I` on the repertoire
(Arabic characters are caseless). -/
def asciiLower (c : Char) : Char :=
  if 65 ≤ c.toNat && c.toNat ≤ 90 then Char.ofNat (c.toNat + 32) else c

/-- ASCII upper-casing, used by `str.capitalize`. -/
def asciiUpper (c : Char) : Char :=
  if 97 ≤ c.toNat && c.toNat ≤ 122 then Char.ofNat (c.toNat - 32) else c

/-- Python `str.strip()`: drop whitespace from both ends. -/
def strip (l : Str) : Str :=
  ((l.dropWhile isSp).reverse.dropWhile isSp).reverse

/-- The action of `unicodedata.normalize("NFKC", ...)` on the modelled
repertoire (see the header comment): U+00A0 is rewritten to a space, and an
"e" immediately followed by the combining acute accent U+0301 composes to
e-acute U+00E9; all other characters are left in place and block composition. -/
def nfkc : Str → Str
  | [] => []
  | [c] => [if c.toNat = 0xa0 then ' ' else c]
  | c :: d :: rest =>
    if c = 'e' && d.toNat = 0x301 then Char.ofNat 0xe9 :: nfkc rest
    else (if c.toNat = 0xa0 then ' ' else c) :: nfkc (d :: rest)

/-- `text.replace("\r\n", "\n")`: left-to-right non-overlapping replacement. -/
def crlf1 : Str → Str
  | [] => []
  | [c] => [c]
  | c :: d :: rest =>
    if c = '\r' && d = '\n' then '\n' :: crlf1 rest else c :: crlf1 (d :: rest)

/-- The two line-ending replacements of `normalize_text`:
`replace("\r\n", "\n")` followed by `replace("\r", "\n")`. -/
def crlf (l : Str) : Str :=
  (crlf1 l).map (fun c => if c = '\r' then '\n' else c)

/-- `text.replace(" ", " ")`. -/
def nbspSub (l : Str) : Str :=
  l.map (fun c => if c.toNat = 0xa0 then ' ' else c)

/-- `text.replace("​", "")`. -/
def zwspSub (l : Str) : Str :=
  l.filter (fun c => c.toNat ≠ 0x200b)

/-- `re.sub(r"[٠-٩]", map_digit, text)`: each Arabic-Indic digit is replaced
by its ASCII digit via positional lookup in `ARABIC_INDIC_DIGITS`. -/
def digMap (c : Char) : Char :=
  if 0x660 ≤ c.toNat && c.toNat ≤ 0x669 then Char.ofNat (48 + (c.toNat - 0x660)) else c

/-- The digit-rewriting pass of `normalize_text`. -/
def digSub (l : Str) : Str := l.map digMap

/-- `normalize_text` (src/parser.py lines 40-49): NFKC normalization, line
ending unification, no-break/zero-width space handling, Arabic-Indic digit
mapping, and a final `strip()`. -/
def normalize_text (text : Str) : Str :=
  strip (digSub (zwspSub (nbspSub (crlf (nfkc text)))))

/-- Case-insensitive prefix test, the `re.I` matching of a literal word. -/
def startsWithCI : Str → Str → Bool
  | [], _ => true
  | _ :: _, [] => false
  | w :: ws, c :: cs => (asciiLower c == asciiLower w) && startsWithCI ws cs

/-- A `\b` boundary holds before a word character when the preceding character
(`none` at the start of the text) is not a word character. -/
def bdryBefore : Option Char → Bool
  | none => true
  | some c => !isWordChar c

/-- A `\b` boundary holds after a word character when the following character
(`none` at the end of the text) is not a word character. -/
def bdryAfter : Option Char → Bool
  | none => true
  | some c => !isWordChar c

/-- One candidate position of `re.search(r'\b w \b', s, re.I)` for a literal
word `w` made of word characters: `w` matches case-insensitively here and both
boundaries hold (`prev` is the character before the position). -/
def wordAt (w : Str) (prev : Option Char) (s : Str) : Bool :=
  bdryBefore prev && startsWithCI w s && bdryAfter (s.drop w.length).head?

/-- Scanning loop of `re.search(r'\b w \b', s, re.I)`. -/
def containsWordAux (w : Str) (prev : Option Char) : Str → Bool
  | [] => false
  | c :: rest => wordAt w prev (c :: rest) || containsWordAux w (some c) rest

/-- `re.search(r'\b w \b', s, re.I) is not None` for a literal word `w` of word
characters: some position of `s` carries the word with both boundaries. -/
def containsWord (w : Str) (s : Str) : Bool :=
  containsWordAux w none s

/-- The check-mark glyphs and asterisk alternatives of `MARK_RE`. -/
def isMarkChar (c : Char) : Bool :=
  c.toNat = 0x2713 || c.toNat = 0x2714 || c.toNat = 0x2705 || c.toNat = 42

/-- `MARK_RE.search(s)`: a check-mark glyph, an asterisk, or one of the words
"correct" (case-insensitive) / "صحيح" with `\b` boundaries occurs in `s`. -/
def containsMark (s : Str) : Bool :=
  s.any isMarkChar || containsWord (toL "correct") s || containsWord (toL "صحيح") s

/-- Scanning loop of `MARK_RE.sub('', s)`: left-to-right non-overlapping
removal of matches; `\b` context is taken from the original text, so `prev`
is the previously scanned original character.  The first argument is
structural-recursion fuel; every step consumes at least one character, so
the text length is always enough fuel. -/
def markSubAux : Nat → Option Char → Str → Str
  | _, _, [] => []
  | 0, _, l => l
  | fuel + 1, prev, c :: rest =>
    if isMarkChar c then markSubAux fuel (some c) rest
    else if wordAt (toL "correct") prev (c :: rest) then
      markSubAux fuel (some 't') ((c :: rest).drop 7)
    else if wordAt (toL "صحيح") prev (c :: rest) then
      markSubAux fuel (some 'ح') ((c :: rest).drop 4)
    else c :: markSubAux fuel (some c) rest

/-- `MARK_RE.sub('', s)`: remove every correctness mark. -/
def markSub (s : Str) : Str := markSubAux s.length none s

/-- The letter alternative of `OPTION_LINE_RE`: `[A-Ha-h]` or the character
range `[أ-ه]`, i.e. the code points U+0623..U+0647. -/
def isOptLetter (c : Char) : Bool :=
  (65 ≤ c.toNat && c.toNat ≤ 72) || (97 ≤ c.toNat && c.toNat ≤ 104) ||
  (0x623 ≤ c.toNat && c.toNat ≤ 0x647)

/-- The punctuation class `[\.\)\-:]` shared by the numbering and option
patterns: one of the characters full stop, right parenthesis, hyphen, colon. -/
def isPunct4 (c : Char) : Bool :=
  c = '.' || c = ')' || c = '-' || c = ':'

/-- `OPTION_LINE_RE.match(l) is not None` for a single line `l`:
`^\s*([A-Ha-h]|[أ-ه])[\.\)\-:]\s*(.+)` anchored at the start.  After the
greedy whitespace run the next two characters must be a letter and a
punctuation mark, and the remainder must let `\s*(.+)` succeed, which holds
exactly when it contains a character other than a line feed. -/
def isOptionLine (l : Str) : Bool :=
  match l.dropWhile isSp with
  | c1 :: c2 :: rest => isOptLetter c1 && isPunct4 c2 && rest.any (fun c => c ≠ '\n')
  | _ => false

/-- The letter class `[A-Za-zأ-ه]` of the answer payload search: any ASCII
letter or a code point in U+0623..U+0647. -/
def isAnsLetter (c : Char) : Bool :=
  (65 ≤ c.toNat && c.toNat ≤ 90) || (97 ≤ c.toNat && c.toNat ≤ 122) ||
  (0x623 ≤ c.toNat && c.toNat ≤ 0x647)

/-- The letter class `[A-Za-zء-ي]` of `clean_option_text`. -/
def isCleanLetter (c : Char) : Bool :=
  (65 ≤ c.toNat && c.toNat ≤ 90) || (97 ≤ c.toNat && c.toNat ≤ 122) ||
  (0x621 ≤ c.toNat && c.toNat ≤ 0x64a)

/-- The punctuation class `[\)\]\.\-:]` of `clean_option_text`. -/
def isCleanPunct (c : Char) : Bool :=
  c = ')' || c = ']' || c = '.' || c = '-' || c = ':'

/-- `ARABIC_LETTER_MAP`: the designated Arabic letters and their Latin
equivalents (U+0623 أ and U+0627 ا to a, U+0628 ب to b, U+062C ج to c,
U+062F د to d, U+0647 ه to e). -/
def arabicLetterMap (c : Char) : Char :=
  if c.toNat = 0x623 || c.toNat = 0x627 then 'a'
  else if c.toNat = 0x628 then 'b'
  else if c.toNat = 0x62c then 'c'
  else if c.toNat = 0x62f then 'd'
  else if c.toNat = 0x647 then 'e'
  else c

/-- `letter_to_index` (src/parser.py lines 54-60) on a single character: lower
case it, translate it through `ARABIC_LETTER_MAP`, and return its alphabet
position when the result lies in a..z. -/
def letter_to_index (c : Char) : Option Nat :=
  let c := arabicLetterMap (asciiLower c)
  if 97 ≤ c.toNat && c.toNat ≤ 122 then some (c.toNat - 97) else none

/-- `re.sub(r'^[\(\[]?[A-Za-zء-ي][\)\]\.\-:]\s*', '', t)`: strip one
leading optional bracket, letter, punctuation mark and trailing whitespace.
The optional bracket backtracks: if it was taken and the rest fails, the bare
bracket character is not a letter, so the whole pattern fails. -/
def cleanLead (t : Str) : Str :=
  match t with
  | c0 :: c1 :: c2 :: rest =>
    if (c0 = '(' || c0 = '[') && isCleanLetter c1 && isCleanPunct c2 then
      rest.dropWhile isSp
    else if isCleanLetter c0 && isCleanPunct c1 then
      (c2 :: rest).dropWhile isSp
    else t
  | c0 :: c1 :: rest =>
    if isCleanLetter c0 && isCleanPunct c1 then rest.dropWhile isSp else t
  | _ => t

/-- `clean_option_text` (src/parser.py lines 63-66): strip a leading letter
prefix, remove correctness marks, and trim whitespace. -/
def clean_option_text (t : Str) : Str :=
  strip (markSub (cleanLead t))

/-- Length of the match of `QUESTION_START_RE`, i.e. `^\s*(\d+)\s*[\.\)\-:]\s*`
without its anchor, attempted at the head of `l`: greedy whitespace, at least
one digit, greedy whitespace, one punctuation mark, greedy whitespace.  All
adjacent classes are disjoint, so the greedy runs never backtrack. -/
def qsLen (l : Str) : Option Nat :=
  let a := l.dropWhile isSp
  let d := a.takeWhile isDig
  if d.isEmpty then none
  else
    match (a.drop d.length).dropWhile isSp with
    | [] => none
    | c :: r => if isPunct4 c then some (l.length - (r.dropWhile isSp).length) else none

/-- The scanning loop of `QUESTION_START_RE.finditer(text)`: `l` is the
remaining text, `pos` its offset in the whole text, `atLS` records whether the
multiline anchor `^` holds at `pos` (offset zero, or right after a line feed).
Matches are reported as (start, end) pairs, non-overlapping, leftmost first;
after a match scanning resumes at its end.  The first argument is
structural-recursion fuel; every step consumes at least one character
(`qsLen_pos`), so the text length is always enough fuel. -/
def findQSAux : Nat → Str → Nat → Bool → List (Nat × Nat)
  | _, [], _, _ => []
  | 0, _, _, _ => []
  | fuel + 1, c :: rest, pos, atLS =>
    if atLS then
      match qsLen (c :: rest) with
      | some n =>
        (pos, pos + n) ::
          findQSAux fuel ((c :: rest).drop n) (pos + n) ((c :: rest).get? (n - 1) == some '\n')
      | none => findQSAux fuel rest (pos + 1) (c == '\n')
    else findQSAux fuel rest (pos + 1) (c == '\n')

/-- `QUESTION_START_RE.finditer(text)` as a list of (start, end) spans. -/
def findQS (text : Str) : List (Nat × Nat) :=
  findQSAux text.length text 0 true

/-- `re.split(r'\n{2,}', text)`: cut the text at every maximal run of two or
more line feeds.  The first argument is structural-recursion fuel; every step
consumes at least one character, so the text length is always enough fuel. -/
def splitBlankAux : Nat → Str → Str → List Str
  | _, cur, [] => [cur.reverse]
  | 0, cur, l => [cur.reverse ++ l]
  | fuel + 1, cur, '\n' :: '\n' :: rest =>
    cur.reverse :: splitBlankAux fuel [] (rest.dropWhile (fun c => c = '\n'))
  | fuel + 1, cur, c :: rest => splitBlankAux fuel (c :: cur) rest

/-- `re.split(r'\n{2,}', text)`. -/
def splitBlank (text : Str) : List Str := splitBlankAux text.length [] text

/-- The block list built from the `finditer` spans: each block runs from one
match start to the next match start (or the end of text), then is stripped. -/
def blocksFrom (text : Str) : List (Nat × Nat) → List Str
  | [] => []
  | [(s, _)] => [strip (text.drop s)]
  | (s, _) :: (s2, e2) :: tl =>
    strip ((text.drop s).take (s2 - s)) :: blocksFrom text ((s2, e2) :: tl)

/-- `extract_blocks` (src/parser.py lines 71-81): cut at numbering markers
when any exist, otherwise fall back to blank-line splitting. -/
def extract_blocks (text : Str) : List Str :=
  let ms := findQS text
  if ms.isEmpty then
    ((splitBlank text).map strip).filter (fun b => b ≠ [])
  else blocksFrom text ms

/-- The characters matched by the `.` of `(.+)`: anything but a line feed. -/
def takeNonNl (r : Str) : Str := r.takeWhile (fun c => c ≠ '\n')

/-- Greedy back-off of `\s*(.+)` on an all-whitespace remainder: the dot must
consume the last character that is not a line feed, so the payload is that
single character; if every character is a line feed the match fails. -/
def lastNonNl (r : Str) : Option Str :=
  match r.reverse.dropWhile (fun c => c = '\n') with
  | [] => none
  | c :: _ => some [c]

/-- `\s*(.+)` attempted on `r`: greedy whitespace, then at least one non-line
feed character; the group is the maximal such run. -/
def dotPlusWs (r : Str) : Option Str :=
  let rem := r.dropWhile isSp
  match rem with
  | _ :: _ => some (takeNonNl rem)
  | [] => lastNonNl r

/-- The tail `\s*[:\-]?\s*(.+)` of `ANSWER_LINE_RE` attempted on `r` (the text
after the keyword), returning the payload group: greedy whitespace, an
optional colon or hyphen (taken when present, given back if the rest then
fails), more whitespace, then the `(.+)` group. -/
def tailMatch (r : Str) : Option Str :=
  let rem := r.dropWhile isSp
  match rem with
  | c :: cr =>
    if c = ':' || c = '-' then
      match dotPlusWs cr with
      | some p => some p
      | none => some (takeNonNl rem)
    else some (takeNonNl rem)
  | [] => lastNonNl r

/-- The keyword alternatives of `ANSWER_LINE_RE`, in alternation order. -/
def ansKeywords : List Str :=
  [toL "answer", toL "ans", toL "الإجابة", toL "جواب", toL "correct", toL "الصحيح"]

/-- One position of the `ANSWER_LINE_RE` search: the first keyword that
matches here case-insensitively with its `\b` boundaries and whose tail
`\s*[:\-]?\s*(.+)` succeeds yields the payload. -/
def ansAt (prev : Option Char) (s : Str) : Option Str :=
  (ansKeywords.filterMap (fun w =>
    if wordAt w prev s then tailMatch (s.drop w.length) else none)).head?

/-- Scanning loop of `ANSWER_LINE_RE.search(s)`: leftmost matching position
wins; returns the payload group. -/
def answerSearchAux (prev : Option Char) : Str → Option Str
  | [] => none
  | c :: rest =>
    match ansAt prev (c :: rest) with
    | some p => some p
    | none => answerSearchAux (some c) rest

/-- `ANSWER_LINE_RE.search(s)` (src/parser.py lines 31-33), returning the
payload `m.group(2)` when the pattern matches somewhere in `s`. -/
def answerSearch (s : Str) : Option Str := answerSearchAux none s

/-- `" ".join(lines)`. -/
def joinSpace (lines : List Str) : Str := List.intercalate [' '] lines

/-- `re.sub(r'^\s*\d+[\.\)\-:]\s*', '', q)`: strip one leading numbering
marker (whitespace, digits, punctuation, whitespace) when present.  Unlike
`QUESTION_START_RE` this pattern allows no whitespace between the digits and
the punctuation mark. -/
def stripLeadNum (l : Str) : Str :=
  let a := l.dropWhile isSp
  let d := a.takeWhile isDig
  if d.isEmpty then l
  else
    match a.drop d.length with
    | c :: r => if isPunct4 c then r.dropWhile isSp else l
    | [] => l

/-- `extract_question_text` (src/parser.py lines 86-94): collect lines up to
the first option or answer line, join them with spaces, strip a leading
numbering marker, and trim. -/
def extract_question_text (lines : List Str) : Str :=
  let q_lines := lines.takeWhile (fun ln => !isOptionLine ln && (answerSearch ln).isNone)
  strip (stripLeadNum (joinSpace q_lines))

/-- The line scan of option-extraction strategy 1 (and the shared bookkeeping
of all strategies): `acc` is the pair of options collected so far and the
last recorded marked index; a matching line whose text carries a correctness
mark records the option's position. -/
def optLinesScan (acc : List Str × Option Nat) : List Str → List Str × Option Nat
  | [] => acc
  | ln :: rest =>
    if isOptionLine ln then
      optLinesScan
        (acc.1 ++ [clean_option_text ln],
         if containsMark ln then some acc.1.length else acc.2) rest
    else optLinesScan acc rest

/-- The zero-width split positions of `INLINE_OPTION_SPLIT_RE`: at the start
of the text or after a whitespace character, right before a letter of
`[A-Ha-hأ-ه]` that is immediately followed by a punctuation mark. -/
def inlineSplitAux (cur : Str) (prev : Option Char) : Str → List Str
  | [] => [cur.reverse]
  | c :: rest =>
    if (prev.isNone || isSp (prev.getD ' ')) && isOptLetter c &&
        (match rest.head? with | some p => isPunct4 p | none => false) then
      cur.reverse :: inlineSplitAux [c] (some c) rest
    else inlineSplitAux (c :: cur) (some c) rest

/-- `INLINE_OPTION_SPLIT_RE.split(joined)`. -/
def inlineSplit (joined : Str) : List Str := inlineSplitAux [] none joined

/-- The piece scan of option-extraction strategy 2: each piece whose stripped
text matches `OPTION_LINE_RE` is an option; marks and cleaning are applied to
the unstripped piece. -/
def inlinePartsScan (acc : List Str × Option Nat) : List Str → List Str × Option Nat
  | [] => acc
  | part :: rest =>
    if isOptionLine (strip part) then
      inlinePartsScan
        (acc.1 ++ [clean_option_text part],
         if containsMark part then some acc.1.length else acc.2) rest
    else inlinePartsScan acc rest

/-- `re.match(r'^\s*[\-\*•]\s+', ln)`: a bullet character followed by at
least one whitespace character. -/
def isBulletLine (l : Str) : Bool :=
  match l.dropWhile isSp with
  | c :: d :: _ => (c = '-' || c = '*' || c.toNat = 0x2022) && isSp d
  | _ => false

/-- The line scan of option-extraction strategy 3 (bulleted lines). -/
def bulletScan (acc : List Str × Option Nat) : List Str → List Str × Option Nat
  | [] => acc
  | ln :: rest =>
    if isBulletLine ln then
      bulletScan
        (acc.1 ++ [clean_option_text ln],
         if containsMark ln then some acc.1.length else acc.2) rest
    else bulletScan acc rest

/-- `extract_options` (src/parser.py lines 99-135): lettered lines, then
inline lettered pieces, then bullets; the first strategy producing at least
one option wins. -/
def extract_options (lines : List Str) : List Str × Option Nat :=
  let s1 := optLinesScan ([], none) lines
  if !s1.1.isEmpty then s1
  else
    let s2 := inlinePartsScan ([], none) (inlineSplit (joinSpace lines))
    if !s2.1.isEmpty then s2
    else bulletScan ([], none) lines

/-- `TRUE_FALSE_SETS` (src/parser.py lines 19-23). -/
def TRUE_FALSE_SETS : List (Str × Str) :=
  [(toL "true", toL "false"), (toL "صح", toL "خطأ"), (toL "yes", toL "no")]

/-- `str.capitalize()`: upper-case the first character, lower-case the rest. -/
def capitalize : Str → Str
  | [] => []
  | c :: rest => asciiUpper c :: rest.map asciiLower

/-- The line scan of `detect_true_false`: the first line containing the
affirmative word (checked first) selects index 0, the first line containing
the negative word selects index 1. -/
def tfScan (t f : Str) : List Str → Option Nat
  | [] => none
  | ln :: rest =>
    if containsWord t ln then some 0
    else if containsWord f ln then some 1
    else tfScan t f rest

/-- The word-pair loop of `detect_true_false`. -/
def tfPairs (qtext : Str) (lines : List Str) : List (Str × Str) → Option (List Str × Option Nat)
  | [] => none
  | (t, f) :: rest =>
    if containsWord t qtext || containsWord f qtext then
      some ([capitalize t, capitalize f], tfScan t f lines)
    else tfPairs qtext lines rest

/-- `detect_true_false` (src/parser.py lines 140-152): the first pair whose
affirmative or negative word occurs whole-word (case-insensitively) in the
question text activates; its capitalized words become the options and the
lines are scanned for the answer. -/
def detect_true_false (qtext : Str) (lines : List Str) : Option (List Str × Option Nat) :=
  tfPairs qtext lines TRUE_FALSE_SETS

/-- `re.search(r'[A-Za-zأ-ه]', payload)`: the first letter of the payload. -/
def findAnsLetter (p : Str) : Option Char := p.find? isAnsLetter

/-- The numeric value of a decimal digit of either script (`int(...)` accepts
Arabic-Indic digits). -/
def digitVal (c : Char) : Nat :=
  if c.toNat ≤ 57 then c.toNat - 48 else c.toNat - 0x660

/-- `re.search(r'\d+', payload)`: the first maximal digit run. -/
def findNum : Str → Option Str
  | [] => none
  | c :: rest => if isDig c then some ((c :: rest).takeWhile isDig) else findNum rest

/-- `int(...)` on a digit run. -/
def numVal (d : Str) : Nat := d.foldl (fun a c => a * 10 + digitVal c) 0

/-- The line loop of `detect_correct_answer` (src/parser.py lines 157-175):
on the first line with an answer pattern, a recognizable letter in the payload
wins; otherwise a number in the payload (1-based) wins; otherwise the scan
continues with the next line. -/
def dcaLoop : List Str → Option Int
  | [] => none
  | ln :: rest =>
    match answerSearch ln with
    | none => dcaLoop rest
    | some payload =>
      match (match findAnsLetter payload with
             | some c => letter_to_index c
             | none => none) with
      | some idx => some (idx : Int)
      | none =>
        match findNum payload with
        | some d => some ((numVal d : Int) - 1)
        | none => dcaLoop rest

/-- `detect_correct_answer` (src/parser.py lines 157-175).  The `options`
argument is accepted but never used, exactly as in the source. -/
def detect_correct_answer (lines : List Str) (options : List Str) : Option Int :=
  dcaLoop lines

/-- Python list indexing `l[i]`, with negative indices counting from the end;
`none` is an `IndexError`. -/
def pyGet (l : List Str) (i : Int) : Option Str :=
  let j := if i < 0 then i + l.length else i
  if 0 ≤ j then l.get? j.toNat else none

/-- `shuffled.index(original)` wrapped in try/except: the first position of
`original`, or `none` (a `ValueError`) when absent. -/
def indexOfOpt (a : Str) : List Str → Option Nat
  | [] => none
  | b :: l => if b = a then some 0 else (indexOfOpt a l).map (fun i => i + 1)

/-- `shuffle_with_correct` (src/parser.py lines 180-190).  The permutation
drawn by `random.shuffle` is supplied as the function `shuf`; `Except.error`
is an uncaught `IndexError` from `options[correct]`, `ok none` the caught
`ValueError` of `.index`. -/
def shuffle_with_correct (shuf : List Str → List Str) (options : List Str)
    (correct : Int) : Except Unit (Option (List Str × Nat)) :=
  let shuffled := shuf options
  match pyGet options correct with
  | none => Except.error ()
  | some original =>
    match indexOfOpt original shuffled with
    | none => Except.ok none
    | some i => Except.ok (some (shuffled, i))

/-- The line terminators of `str.splitlines()` present in the repertoire. -/
def isLineTerm (c : Char) : Bool :=
  c.toNat = 10 || c.toNat = 13 || c.toNat = 11 || c.toNat = 12 ||
  c.toNat = 0x1c || c.toNat = 0x1d || c.toNat = 0x1e || c.toNat = 0x85 ||
  c.toNat = 0x2028 || c.toNat = 0x2029

/-- Scanning loop of `str.splitlines()`: `\r\n` counts as one terminator and
a trailing terminator produces no final empty line. -/
def splitlinesAux (cur : Str) : Str → List Str
  | [] => [cur.reverse]
  | '\r' :: '\n' :: rest =>
    cur.reverse :: (if rest.isEmpty then [] else splitlinesAux [] rest)
  | c :: rest =>
    if isLineTerm c then cur.reverse :: (if rest.isEmpty then [] else splitlinesAux [] rest)
    else splitlinesAux (c :: cur) rest

/-- `block.splitlines()`; the empty string yields no lines. -/
def pySplitlines (l : Str) : List Str :=
  if l.isEmpty then [] else splitlinesAux [] l

/-- `[ln.strip() for ln in block.splitlines() if ln.strip()]`. -/
def pyLines (block : Str) : List Str :=
  ((pySplitlines block).map strip).filter (fun l => l ≠ [])

/-- The option/answer resolution step of `parse_message` (src/parser.py lines
210-219): a truthy `detect_true_false` result supplies options and correct
index directly (a `None` index is kept as `None`); otherwise options come
from `extract_options` and the correct index from `detect_correct_answer`,
falling back to the marked index. -/
def resolveTF (lines : List Str) : Option (List Str × Option Nat) → List Str × Option Int
  | some (opts, c) => (opts, c.map (fun n => (n : Int)))
  | none =>
    let om := extract_options lines
    let ans := detect_correct_answer lines om.1
    (om.1, match ans with
           | some a => some a
           | none => om.2.map (fun n => (n : Int)))

/-- The per-block stage of `parse_message` before shuffling (src/parser.py
lines 202-223): line splitting, the two-line minimum, question text, option
and answer resolution, and the validation
`not options or correct is None or not (0 <= correct < len(options))`.
`some (qtext, options, correct)` means the block reached the shuffle step. -/
def pre_validate (block : Str) : Option (Str × List Str × Int) :=
  let lines := pyLines block
  if lines.length < 2 then none
  else
    let qtext := extract_question_text lines
    let oc := resolveTF lines (detect_true_false qtext lines)
    match oc.2 with
    | none => none
    | some c =>
      if oc.1.isEmpty || c < 0 || (oc.1.length : Int) ≤ c then none
      else some (qtext, oc.1, c)

/-- One iteration of the block loop of `parse_message`: `ok none` sends the
block to the failed list, `ok (some q)` appends a question, and an error is
an uncaught exception. -/
def parse_block (shuf : List Str → List Str) (block : Str) :
    Except Unit (Option (Str × List Str × Nat)) :=
  match pre_validate block with
  | none => Except.ok none
  | some (qtext, options, correct) =>
    match shuffle_with_correct shuf options correct with
    | Except.error e => Except.error e
    | Except.ok none => Except.ok none
    | Except.ok (some (l, i)) => Except.ok (some (qtext, l, i))

/-- The block loop of `parse_message`, preserving block order in both output
sequences. -/
def parse_blocks (shuf : List Str → List Str) :
    List Str → Except Unit (List (Str × List Str × Nat) × List Str)
  | [] => Except.ok ([], [])
  | b :: rest =>
    match parse_block shuf b with
    | Except.error e => Except.error e
    | Except.ok r =>
      match parse_blocks shuf rest with
      | Except.error e => Except.error e
      | Except.ok (qs, fs) =>
        match r with
        | some q => Except.ok (q :: qs, fs)
        | none => Except.ok (qs, b :: fs)

/-- `parse_message` (src/parser.py lines 195-232).  `shuf` is the permutation
drawn by `random.shuffle` for each option list; the result pairs the question
records `(question_text, shuffled_options, correct_index)` with the failed
block texts. -/
def parse_message (shuf : List Str → List Str) (message : Str) :
    Except Unit (List (Str × List Str × Nat) × List Str) :=
  parse_blocks shuf (extract_blocks (normalize_text message))

instance {ε α : Type} [DecidableEq ε] [DecidableEq α] : DecidableEq (Except ε α) := fun a b =>
  match a, b with
  | Except.ok x, Except.ok y =>
    if h : x = y then isTrue (by rw [h]) else isFalse (by intro hc; cases hc; exact h rfl)
  | Except.error x, Except.error y =>
    if h : x = y then isTrue (by rw [h]) else isFalse (by intro hc; cases hc; exact h rfl)
  | Except.ok _, Except.error _ => isFalse (by intro hc; cases hc)
  | Except.error _, Except.ok _ => isFalse (by intro hc; cases hc)

/-- The input of spec Scenario A (lettered English with explicit answer). -/
def scenarioA : Str :=
  toL "1. What is the capital of France?\na) Berlin\nb) Madrid\nc) Paris\nd) Rome\nAnswer: c"

/-- The input of spec Scenario C (true/false without lettered options). -/
def scenarioC : Str := toL "1. The sky is true.\ntrue"

/-- The input of spec Scenario D (block with no options and no answer). -/
def scenarioD : Str := toL "5. Who wrote Hamlet?\nI have no idea."

/-- The input of spec Scenario E: Scenario A and Scenario D separated by a
blank line. -/
def scenarioE : Str := scenarioA ++ toL "\n\n" ++ scenarioD

/-- No "e" immediately followed by the combining acute accent U+0301 occurs
in the list: the canonical-composition-free shape that `nfkc` leaves alone. -/
def noEA : Str → Prop
  | [] => True
  | c :: rest => (c = 'e' → ∀ d, rest.head? = some d → d.toNat ≠ 0x301) ∧ noEA rest

/-- ASCII decimal digits, as named by claim C7. -/
def isAsciiDigit (c : Char) : Bool := 48 ≤ c.toNat && c.toNat ≤ 57

/-- The question-start pattern in the words of claim C7 (spec side), applied
to the text from the candidate position on: optional leading whitespace, one
or more ASCII digits immediately followed by one of the four punctuation
marks, and then a space; whitespace between the digits and the punctuation is
not allowed. -/
def specC7Pat (l : Str) : Bool :=
  let a := l.dropWhile isSp
  let d := a.takeWhile isAsciiDigit
  if d.isEmpty then false
  else
    match a.drop d.length with
    | c :: c2 :: _ => isPunct4 c && isSp c2
    | _ => false

/-- The option-letter class in the words of claim C8 (spec side): one of the
Latin letters A-H (case-insensitive) or one of the five designated Arabic
letters of `ARABIC_LETTER_MAP` (أ/ا counted as the spec's single slot plus
ب ج د ه). -/
def specC8Letter (c : Char) : Bool :=
  (65 ≤ c.toNat && c.toNat ≤ 72) || (97 ≤ c.toNat && c.toNat ≤ 104) ||
  c.toNat = 0x623 || c.toNat = 0x627 || c.toNat = 0x628 || c.toNat = 0x62c ||
  c.toNat = 0x62f || c.toNat = 0x647

/-- Option-line recognition in the words of claim C8 (spec side): after
optional leading whitespace, a designated letter, a punctuation mark, a
space, and then the option text. -/
def specC8OptionLine (l : Str) : Bool :=
  match l.dropWhile isSp with
  | c1 :: c2 :: c3 :: rest =>
    specC8Letter c1 && isPunct4 c2 && isSp c3 && !rest.isEmpty
  | _ => false

theorem len_dropWhile_le (p : Char → Bool) (l : Str) :
    (l.dropWhile p).length ≤ l.length :=
  (List.dropWhile_sublist _).length_le

theorem qsLen_pos {l : Str} {n : Nat} (h : qsLen l = some n) :
    1 ≤ n ∧ n ≤ l.length := by
  simp only [qsLen] at h
  split at h
  · exact absurd h (by simp)
  · split at h
    · exact absurd h (by simp)
    · rename_i hne b c r hb
      split at h
      · rename_i hc
        injection h with h
        have h1 : (r.dropWhile isSp).length ≤ r.length := len_dropWhile_le isSp r
        have h2 : (c :: r).length ≤ ((l.dropWhile isSp).drop
            ((l.dropWhile isSp).takeWhile isDig).length).length :=
          hb ▸ len_dropWhile_le isSp _
        have h3 : ((l.dropWhile isSp).drop
            ((l.dropWhile isSp).takeWhile isDig).length).length ≤ (l.dropWhile isSp).length := by
          simp [List.length_drop]
        have h4 : (l.dropWhile isSp).length ≤ l.length := len_dropWhile_le isSp l
        simp only [List.length_cons] at h2
        omega
      · exact absurd h (by simp)

theorem indexOfOpt_lt_length {a : Str} {l : List Str} {i : Nat}
    (h : indexOfOpt a l = some i) : i < l.length := by
  induction l generalizing i with
  | nil => simp [indexOfOpt] at h
  | cons b t ih =>
    simp only [indexOfOpt] at h
    split at h
    · cases h
      simp
    · rcases ht : indexOfOpt a t with _ | j
      · rw [ht] at h
        simp at h
      · rw [ht] at h
        simp only [Option.map_some'] at h
        cases h
        have := ih ht
        simp
        omega

theorem indexOfOpt_get {a : Str} {l : List Str} {i : Nat}
    (h : indexOfOpt a l = some i) : l.get? i = some a := by
  induction l generalizing i with
  | nil => simp [indexOfOpt] at h
  | cons b t ih =>
    simp only [indexOfOpt] at h
    split at h
    · rename_i hb
      cases h
      simp [hb]
    · rcases ht : indexOfOpt a t with _ | j
      · rw [ht] at h
        simp at h
      · rw [ht] at h
        simp only [Option.map_some'] at h
        cases h
        simpa using ih ht

theorem indexOfOpt_isSome_of_mem {a : Str} {l : List Str}
    (h : a ∈ l) : (indexOfOpt a l).isSome := by
  induction l with
  | nil => cases h
  | cons b t ih =>
    simp only [indexOfOpt]
    split
    · simp
    · rename_i hb
      rcases List.mem_cons.1 h with h1 | h2
      · exact absurd h1.symm hb
      · rcases Option.isSome_iff_exists.1 (ih h2) with ⟨j, hj⟩
        simp [hj]

theorem pre_validate_valid {b : Str} {q : Str} {o : List Str} {c : Int}
    (h : pre_validate b = some (q, o, c)) :
    0 ≤ c ∧ c < (o.length : Int) ∧ o ≠ [] := by
  simp only [pre_validate] at h
  split at h
  · cases h
  · split at h
    · cases h
    · split at h
      · cases h
      · rename_i hcond
        cases h
        simp only [Bool.or_eq_true, decide_eq_true_eq, List.isEmpty_iff] at hcond
        push_neg at hcond
        obtain ⟨⟨hne, hc0⟩, hlt⟩ := hcond
        exact ⟨by omega, by omega, hne⟩

theorem pyGet_of_valid {o : List Str} {c : Int} (h0 : 0 ≤ c) (hlt : c < (o.length : Int)) :
    ∃ orig, pyGet o c = some orig ∧ o.get? c.toNat = some orig := by
  have hlt' : c.toNat < o.length := by omega
  refine ⟨o.get ⟨c.toNat, hlt'⟩, ?_, List.get?_eq_get hlt'⟩
  unfold pyGet
  have hn : ¬ c < 0 := by omega
  simp only [hn, if_false, h0, if_true]
  exact List.get?_eq_get hlt'

theorem shuffle_eq_of_valid (shuf : List Str → List Str) {o : List Str} {c : Int} {orig : Str}
    (h : pyGet o c = some orig) :
    shuffle_with_correct shuf o c =
      (match indexOfOpt orig (shuf o) with
       | none => Except.ok none
       | some i => Except.ok (some (shuf o, i))) := by
  unfold shuffle_with_correct
  rw [h]

theorem shuffle_ok_some {shuf : List Str → List Str} {o l : List Str} {c : Int} {i : Nat}
    (h : shuffle_with_correct shuf o c = Except.ok (some (l, i))) :
    l = shuf o ∧ ∃ orig, pyGet o c = some orig ∧ indexOfOpt orig (shuf o) = some i := by
  unfold shuffle_with_correct at h
  rcases hg : pyGet o c with _ | orig
  · simp [hg] at h
  · simp only [hg] at h
    rcases hio : indexOfOpt orig (shuf o) with _ | j
    · simp [hio] at h
    · simp only [hio, Except.ok.injEq, Option.some.injEq, Prod.mk.injEq] at h
      exact ⟨h.1.symm, orig, rfl, by rw [hio, h.2]⟩

theorem parse_block_of_pre (shuf : List Str → List Str) {b q : Str} {o : List Str} {c : Int}
    (hpre : pre_validate b = some (q, o, c)) :
    ∃ orig, pyGet o c = some orig ∧
      parse_block shuf b =
        (match indexOfOpt orig (shuf o) with
         | none => Except.ok none
         | some i => Except.ok (some (q, shuf o, i))) := by
  obtain ⟨h0, hlt, _⟩ := pre_validate_valid hpre
  obtain ⟨orig, hg, _⟩ := pyGet_of_valid h0 hlt
  refine ⟨orig, hg, ?_⟩
  simp only [parse_block, hpre]
  rw [shuffle_eq_of_valid shuf hg]
  rcases hio : indexOfOpt orig (shuf o) with _ | i <;> simp [hio]

theorem parse_block_ok (shuf : List Str → List Str) (b : Str) :
    ∃ r, parse_block shuf b = Except.ok r := by
  rcases hp : pre_validate b with _ | ⟨q, o, c⟩
  · exact ⟨none, by simp [parse_block, hp]⟩
  · obtain ⟨orig, _, heq⟩ := parse_block_of_pre shuf hp
    rcases hio : indexOfOpt orig (shuf o) with _ | i
    · exact ⟨none, by rw [heq, hio]⟩
    · exact ⟨some (q, shuf o, i), by rw [heq, hio]⟩

theorem parse_blocks_ok (shuf : List Str → List Str) (blocks : List Str) :
    ∃ r, parse_blocks shuf blocks = Except.ok r := by
  induction blocks with
  | nil => exact ⟨([], []), rfl⟩
  | cons b rest ih =>
    obtain ⟨r, hr⟩ := parse_block_ok shuf b
    obtain ⟨⟨qs, fs⟩, hrest⟩ := ih
    rcases r with _ | q
    · exact ⟨(qs, b :: fs), by simp [parse_blocks, hr, hrest]⟩
    · exact ⟨(q :: qs, fs), by simp [parse_blocks, hr, hrest]⟩

theorem parse_blocks_count {shuf : List Str → List Str} {blocks : List Str}
    {qs : List (Str × List Str × Nat)} {fs : List Str}
    (h : parse_blocks shuf blocks = Except.ok (qs, fs)) :
    qs.length + fs.length = blocks.length := by
  induction blocks generalizing qs fs with
  | nil =>
    cases h
    simp
  | cons b rest ih =>
    simp only [parse_blocks] at h
    rcases hb : parse_block shuf b with e | r
    · simp [hb] at h
    · simp only [hb] at h
      rcases hrest : parse_blocks shuf rest with e | ⟨qs0, fs0⟩
      · simp [hrest] at h
      · simp only [hrest] at h
        rcases r with _ | q
        · simp only [Except.ok.injEq, Prod.mk.injEq] at h
          obtain ⟨h1, h2⟩ := h
          subst h1
          subst h2
          have := ih hrest
          simp only [List.length_cons]
          omega
        · simp only [Except.ok.injEq, Prod.mk.injEq] at h
          obtain ⟨h1, h2⟩ := h
          subst h1
          subst h2
          have := ih hrest
          simp only [List.length_cons]
          omega

theorem parse_block_bounds {shuf : List Str → List Str} {b q : Str} {l : List Str} {i : Nat}
    (h : parse_block shuf b = Except.ok (some (q, l, i))) : i < l.length := by
  unfold parse_block at h
  rcases hp : pre_validate b with _ | ⟨q0, o, c⟩
  · simp [hp] at h
  · simp only [hp] at h
    rcases hs : shuffle_with_correct shuf o c with e | r
    · simp [hs] at h
    · simp only [hs] at h
      rcases r with _ | ⟨l0, i0⟩
      · simp at h
      · simp only [Except.ok.injEq, Option.some.injEq, Prod.mk.injEq] at h
        obtain ⟨_, hl, hi⟩ := h
        obtain ⟨hl0, orig, _, hio⟩ := shuffle_ok_some hs
        subst hl
        subst hi
        rw [hl0]
        exact indexOfOpt_lt_length hio

theorem parse_blocks_bounds {shuf : List Str → List Str} {blocks : List Str}
    {qs : List (Str × List Str × Nat)} {fs : List Str}
    (h : parse_blocks shuf blocks = Except.ok (qs, fs)) :
    ∀ q ∈ qs, q.2.2 < q.2.1.length ∧ 1 ≤ q.2.1.length := by
  induction blocks generalizing qs fs with
  | nil =>
    cases h
    intro q hq
    cases hq
  | cons b rest ih =>
    simp only [parse_blocks] at h
    rcases hb : parse_block shuf b with e | r
    · simp [hb] at h
    · simp only [hb] at h
      rcases hrest : parse_blocks shuf rest with e | ⟨qs0, fs0⟩
      · simp [hrest] at h
      · simp only [hrest] at h
        rcases r with _ | ⟨q0, l0, i0⟩
        · simp only [Except.ok.injEq, Prod.mk.injEq] at h
          obtain ⟨h1, h2⟩ := h
          subst h1
          subst h2
          exact ih hrest
        · simp only [Except.ok.injEq, Prod.mk.injEq] at h
          obtain ⟨h1, h2⟩ := h
          subst h1
          subst h2
          intro q hq
          rcases List.mem_cons.1 hq with h1 | h2
          · subst h1
            have hb2 := parse_block_bounds hb
            exact ⟨hb2, by simp only [] at hb2 ⊢; omega⟩
          · exact ih hrest q h2

/-- Claim C5: `parse_message` is total over its input domain: for every input
string and every permutation draw it returns a (questions, failed) result pair
and never raises an exception (the `Except.error` case, the only uncaught
exception point of the model, is never produced), and `normalize_text` always
succeeds, returning the empty string on empty input. -/
theorem parse_message_is_total :
    (∀ (shuf : List Str → List Str) (message : Str),
      ∃ r, parse_message shuf message = Except.ok r) ∧
    normalize_text (toL "") = toL "" := by
  constructor
  · intro shuf message
    exact parse_blocks_ok shuf (extract_blocks (normalize_text message))
  · rfl

/-- Claim C3: every block produced by segmentation ends up in exactly one of
the two output sequences: for every input and draw, the number of questions
plus the number of failed blocks equals the number of blocks the segmenter
returns for the normalized text. -/
theorem parse_message_total_coverage (shuf : List Str → List Str) (message : Str)
    (qs : List (Str × List Str × Nat)) (fs : List Str)
    (h : parse_message shuf message = Except.ok (qs, fs)) :
    qs.length + fs.length = (extract_blocks (normalize_text message)).length :=
  parse_blocks_count h

/-- Witness for C3 at Scenario E with the identity draw: one question from
each of the two blocks would not arise here — the parse yields two questions
and no failed block, and 2 + 0 is the block count. -/
theorem parse_message_total_coverage_witness :
    ([(toL "What is the capital of France?",
       [toL "Berlin", toL "Madrid", toL "Paris", toL "Rome"], 2),
      (toL "Who wrote Hamlet? I have no idea.", [toL "Yes", toL "No"], 1)] :
      List (Str × List Str × Nat)).length + ([] : List Str).length =
      (extract_blocks (normalize_text scenarioE)).length :=
  parse_message_total_coverage (fun l => l) scenarioE _ _ (by decide)

/-- Claim C2: for every input string and every question record returned by
`parse_message`, the correct index satisfies 0 <= correctIndex < len(options)
and the options list is non-empty. -/
theorem parse_message_bounds_invariant (shuf : List Str → List Str) (message : Str)
    (qs : List (Str × List Str × Nat)) (fs : List Str)
    (h : parse_message shuf message = Except.ok (qs, fs)) :
    ∀ q ∈ qs, q.2.2 < q.2.1.length ∧ 1 ≤ q.2.1.length :=
  parse_blocks_bounds h

/-- Witness for C2 at Scenario A with the identity draw: the single returned
question has correct index 2 among its 4 options. -/
theorem parse_message_bounds_invariant_witness :
    ((toL "What is the capital of France?",
      [toL "Berlin", toL "Madrid", toL "Paris", toL "Rome"], 2) :
      Str × List Str × Nat).2.2 <
      ((toL "What is the capital of France?",
        [toL "Berlin", toL "Madrid", toL "Paris", toL "Rome"], 2) :
        Str × List Str × Nat).2.1.length ∧
    1 ≤ ((toL "What is the capital of France?",
        [toL "Berlin", toL "Madrid", toL "Paris", toL "Rome"], 2) :
        Str × List Str × Nat).2.1.length :=
  parse_message_bounds_invariant (fun l => l) scenarioA
    [(toL "What is the capital of France?",
      [toL "Berlin", toL "Madrid", toL "Paris", toL "Rome"], 2)] []
    (by decide) _ (by decide)

/-- Claim C10: for every options list and in-range correct index, when the
drawn permutation really permutes the options, `shuffle_with_correct` never
returns `None`: the original correct text occurs in the shuffled list (even
under duplicates), so an index is found; consequently a block that passes
validation always becomes a question and the shuffle-identity failure path of
the orchestrator is unreachable. -/
theorem shuffle_with_correct_never_none :
    (∀ (shuf : List Str → List Str) (o : List Str) (c : Int),
      (shuf o).Perm o → 0 ≤ c → c < (o.length : Int) →
      ∃ i, shuffle_with_correct shuf o c = Except.ok (some (shuf o, i))) ∧
    (∀ (shuf : List Str → List Str) (b q : Str) (o : List Str) (c : Int),
      (shuf o).Perm o → pre_validate b = some (q, o, c) →
      ∃ i, parse_block shuf b = Except.ok (some (q, shuf o, i))) := by
  have key : ∀ (shuf : List Str → List Str) (o : List Str) (c : Int),
      (shuf o).Perm o → 0 ≤ c → c < (o.length : Int) →
      ∃ i, indexOfOpt (pyGet o c).iget (shuf o) = some i ∧
        pyGet o c = some (pyGet o c).iget := by
    intro shuf o c hperm h0 hlt
    obtain ⟨orig, hg, hget⟩ := pyGet_of_valid h0 hlt
    have hmem : orig ∈ o := List.get?_mem hget
    have hmem2 : orig ∈ shuf o := hperm.mem_iff.2 hmem
    obtain ⟨i, hi⟩ := Option.isSome_iff_exists.1 (indexOfOpt_isSome_of_mem hmem2)
    exact ⟨i, by rw [hg]; exact hi, by rw [hg]⟩
  constructor
  · intro shuf o c hperm h0 hlt
    obtain ⟨i, hi, hg⟩ := key shuf o c hperm h0 hlt
    refine ⟨i, ?_⟩
    rw [shuffle_eq_of_valid shuf hg, hi]
  · intro shuf b q o c hperm hpre
    obtain ⟨h0, hlt, _⟩ := pre_validate_valid hpre
    obtain ⟨i, hi, hg⟩ := key shuf o c hperm h0 hlt
    obtain ⟨orig, hg2, heq⟩ := parse_block_of_pre shuf hpre
    rw [hg2] at hi
    simp only [Option.iget_some] at hi
    refine ⟨i, ?_⟩
    rw [heq, hi]

/-- Witness for C10: both parts applied at the swap permutation with the
duplicate-free list ["a", "b"] and correct index 0 (part one), and at the
Scenario D block through `pre_validate` (part two). -/
theorem shuffle_with_correct_never_none_witness :
    (∃ i, shuffle_with_correct (fun l => l.reverse) [toL "a", toL "b"] 0 =
      Except.ok (some ((([toL "a", toL "b"] : List Str)).reverse, i))) ∧
    (∃ i, parse_block (fun l => l) scenarioD =
      Except.ok (some (toL "Who wrote Hamlet? I have no idea.", [toL "Yes", toL "No"], i))) := by
  constructor
  · exact shuffle_with_correct_never_none.1 (fun l => l.reverse) [toL "a", toL "b"] 0
      (List.reverse_perm _) (by decide) (by decide)
  · exact shuffle_with_correct_never_none.2 (fun l => l) scenarioD
      (toL "Who wrote Hamlet? I have no idea.") [toL "Yes", toL "No"] 1
      (List.Perm.refl _) (by decide)

theorem parse_block_perm {shuf : List Str → List Str} {b q : Str} {o : List Str} {c : Int}
    (hperm : (shuf o).Perm o) (hpre : pre_validate b = some (q, o, c)) :
    ∃ i orig, pyGet o c = some orig ∧
      parse_block shuf b = Except.ok (some (q, shuf o, i)) ∧
      (shuf o).get? i = some orig := by
  obtain ⟨h0, hlt, _⟩ := pre_validate_valid hpre
  obtain ⟨orig, hg, hget⟩ := pyGet_of_valid h0 hlt
  have hmem : orig ∈ shuf o := hperm.mem_iff.2 (List.get?_mem hget)
  obtain ⟨i, hi⟩ := Option.isSome_iff_exists.1 (indexOfOpt_isSome_of_mem hmem)
  obtain ⟨orig2, hg2, heq⟩ := parse_block_of_pre shuf hpre
  rw [hg] at hg2
  injection hg2 with hg2
  subst hg2
  exact ⟨i, orig, hg, by rw [heq, hi], indexOfOpt_get hi⟩

/-- Claim C1 (counterexample): the claim states that Scenario D yields zero
questions and one failed block holding the original text, and that Scenario E
yields one question and one failed block.  It is false: with the identity
draw (a legitimate permutation), Scenario D yields one question — the yes/no
true-false pair activates on the word "no" of "I have no idea." — and no
failed block. -/
theorem scenarioD_claim_counterexample :
    ¬ (∀ (shuf : List Str → List Str), (∀ l, (shuf l).Perm l) →
        parse_message shuf scenarioD = Except.ok ([], [scenarioD]) ∧
        ∃ q, parse_message shuf scenarioE = Except.ok ([q], [scenarioD])) := by
  intro h
  have h1 := (h (fun l => l) (fun l => List.Perm.refl l)).1
  exact absurd h1 (by decide)

/-- Claim C1 (amended): for Scenario D, `parse_message` returns one question
(prompt "Who wrote Hamlet? I have no idea.", options the drawn permutation of
[Yes, No], correct option "No") and zero failed blocks, because the (yes, no)
true/false pair activates on the word "no"; consequently Scenario E returns
two questions — Scenario A's followed by Scenario D's — and zero failed
blocks. -/
theorem scenarioD_scenarioE_amended (shuf : List Str → List Str)
    (hp : ∀ l, (shuf l).Perm l) :
    ∃ i j,
      parse_message shuf scenarioD =
        Except.ok ([(toL "Who wrote Hamlet? I have no idea.",
          shuf [toL "Yes", toL "No"], i)], []) ∧
      (shuf [toL "Yes", toL "No"]).get? i = some (toL "No") ∧
      parse_message shuf scenarioE =
        Except.ok ([(toL "What is the capital of France?",
            shuf [toL "Berlin", toL "Madrid", toL "Paris", toL "Rome"], j),
          (toL "Who wrote Hamlet? I have no idea.",
            shuf [toL "Yes", toL "No"], i)], []) ∧
      (shuf [toL "Berlin", toL "Madrid", toL "Paris", toL "Rome"]).get? j =
        some (toL "Paris") := by
  obtain ⟨i, origD, hgD, hpbD, hgetD⟩ := parse_block_perm (hp [toL "Yes", toL "No"])
    (show pre_validate scenarioD =
      some (toL "Who wrote Hamlet? I have no idea.", [toL "Yes", toL "No"], 1) by decide)
  obtain ⟨j, origA, hgA, hpbA, hgetA⟩ :=
    parse_block_perm (hp [toL "Berlin", toL "Madrid", toL "Paris", toL "Rome"])
    (show pre_validate scenarioA =
      some (toL "What is the capital of France?",
        [toL "Berlin", toL "Madrid", toL "Paris", toL "Rome"], 2) by decide)
  have hoD : origD = toL "No" := by
    have h2 : pyGet [toL "Yes", toL "No"] 1 = some (toL "No") := by decide
    rw [h2] at hgD
    injection hgD with hgD
    exact hgD.symm
  have hoA : origA = toL "Paris" := by
    have h2 : pyGet [toL "Berlin", toL "Madrid", toL "Paris", toL "Rome"] 2 =
        some (toL "Paris") := by decide
    rw [h2] at hgA
    injection hgA with hgA
    exact hgA.symm
  subst hoD
  subst hoA
  refine ⟨i, j, ?_, hgetD, ?_, hgetA⟩
  · unfold parse_message
    rw [show extract_blocks (normalize_text scenarioD) = [scenarioD] from by decide]
    simp [parse_blocks, hpbD]
  · unfold parse_message
    rw [show extract_blocks (normalize_text scenarioE) = [scenarioA, scenarioD] from by decide]
    simp [parse_blocks, hpbA, hpbD]

/-- Witness for the amended C1 at the identity draw. -/
theorem scenarioD_scenarioE_amended_witness :
    ∃ i j,
      parse_message (fun l => l) scenarioD =
        Except.ok ([(toL "Who wrote Hamlet? I have no idea.",
          (fun (l : List Str) => l) [toL "Yes", toL "No"], i)], []) ∧
      ((fun (l : List Str) => l) [toL "Yes", toL "No"]).get? i = some (toL "No") ∧
      parse_message (fun l => l) scenarioE =
        Except.ok ([(toL "What is the capital of France?",
            (fun (l : List Str) => l) [toL "Berlin", toL "Madrid", toL "Paris", toL "Rome"], j),
          (toL "Who wrote Hamlet? I have no idea.",
            (fun (l : List Str) => l) [toL "Yes", toL "No"], i)], []) ∧
      ((fun (l : List Str) => l) [toL "Berlin", toL "Madrid", toL "Paris", toL "Rome"]).get? j =
        some (toL "Paris") :=
  scenarioD_scenarioE_amended (fun l => l) (fun l => List.Perm.refl l)

/-- Claim C4 (counterexample): the claim states that for Scenario C,
`parse_message` returns one question whose options are exactly
["True", "False"] in that order with correct index 0, for every permutation
drawn by the shuffler.  It is false: the reversal draw (a legitimate
permutation) returns options ["False", "True"] with correct index 1. -/
theorem scenarioC_claim_counterexample :
    ¬ (∀ (shuf : List Str → List Str), (∀ l, (shuf l).Perm l) →
        ∃ p, parse_message shuf scenarioC =
          Except.ok ([(p, [toL "True", toL "False"], 0)], [])) := by
  intro h
  obtain ⟨p, hp⟩ := h (fun l => l.reverse) (fun l => List.reverse_perm l)
  rw [show parse_message (fun l => l.reverse) scenarioC =
      Except.ok ([(toL "The sky is true. true", [toL "False", toL "True"], 1)], [])
    from by decide] at hp
  simp [toL] at hp

/-- Claim C4 (amended): for Scenario C, the true/false detector supplies
options ["True", "False"] with correct index 0, and for every permutation
drawn `parse_message` returns one question whose options are that drawn
permutation of ["True", "False"] and whose correct index points at "True". -/
theorem scenarioC_amended (shuf : List Str → List Str) (hp : ∀ l, (shuf l).Perm l) :
    detect_true_false (toL "The sky is true. true")
        [toL "1. The sky is true.", toL "true"] =
      some ([toL "True", toL "False"], some 0) ∧
    ∃ i, parse_message shuf scenarioC =
        Except.ok ([(toL "The sky is true. true", shuf [toL "True", toL "False"], i)], []) ∧
      (shuf [toL "True", toL "False"]).get? i = some (toL "True") ∧
      (shuf [toL "True", toL "False"]).Perm [toL "True", toL "False"] := by
  refine ⟨by decide, ?_⟩
  obtain ⟨i, orig, hg, hpb, hget⟩ := parse_block_perm (hp [toL "True", toL "False"])
    (show pre_validate scenarioC =
      some (toL "The sky is true. true", [toL "True", toL "False"], 0) by decide)
  have ho : orig = toL "True" := by
    have h2 : pyGet [toL "True", toL "False"] 0 = some (toL "True") := by decide
    rw [h2] at hg
    injection hg with hg
    exact hg.symm
  subst ho
  refine ⟨i, ?_, hget, hp _⟩
  unfold parse_message
  rw [show extract_blocks (normalize_text scenarioC) = [scenarioC] from by decide]
  simp [parse_blocks, hpb]

/-- Witness for the amended C4 at the identity draw. -/
theorem scenarioC_amended_witness :
    detect_true_false (toL "The sky is true. true")
        [toL "1. The sky is true.", toL "true"] =
      some ([toL "True", toL "False"], some 0) ∧
    ∃ i, parse_message (fun l => l) scenarioC =
        Except.ok ([(toL "The sky is true. true",
          (fun (l : List Str) => l) [toL "True", toL "False"], i)], []) ∧
      ((fun (l : List Str) => l) [toL "True", toL "False"]).get? i = some (toL "True") ∧
      ((fun (l : List Str) => l) [toL "True", toL "False"]).Perm [toL "True", toL "False"] :=
  scenarioC_amended (fun l => l) (fun l => List.Perm.refl l)

theorem tfScan_eq (t f : Str) (lines : List Str) :
    tfScan t f lines =
      (lines.find? (fun ln => containsWord t ln || containsWord f ln)).map
        (fun ln => if containsWord t ln then 0 else 1) := by
  induction lines with
  | nil => rfl
  | cons ln rest ih =>
    simp only [tfScan, List.find?]
    by_cases ht : containsWord t ln
    · simp [ht]
    · by_cases hf : containsWord f ln
      · simp [ht, hf]
      · simp only [Bool.not_eq_true] at ht hf
        simp only [ht, hf, Bool.false_or, if_false]
        simpa using ih

theorem tfPairs_eq (qtext : Str) (lines : List Str) (sets : List (Str × Str)) :
    tfPairs qtext lines sets =
      (sets.find? (fun tf => containsWord tf.1 qtext || containsWord tf.2 qtext)).map
        (fun tf => ([capitalize tf.1, capitalize tf.2],
          (lines.find? (fun ln => containsWord tf.1 ln || containsWord tf.2 ln)).map
            (fun ln => if containsWord tf.1 ln then 0 else 1))) := by
  induction sets with
  | nil => rfl
  | cons tf rest ih =>
    obtain ⟨t, f⟩ := tf
    simp only [tfPairs, List.find?]
    by_cases h : (containsWord t qtext || containsWord f qtext) = true
    · simp [h, tfScan_eq]
    · simp only [Bool.not_eq_true] at h
      simp only [h, if_false]
      simpa using ih

/-- Claim C9 (counterexample): the claim states that the first block line
containing the pair's affirmative word selects correct index 0.  It is false
when an earlier line contains the negative word: the scan stops at the first
line containing either word, so ["it is false", "it is true"] yields correct
index 1 although a line contains the affirmative word. -/
theorem detect_true_false_claim_counterexample :
    ¬ (∀ (qtext : Str) (lines : List Str) (c : Option Nat),
        detect_true_false qtext lines = some ([toL "True", toL "False"], c) →
        (∃ ln ∈ lines, containsWord (toL "true") ln = true) → c = some 0) := by
  intro h
  have := h (toL "true or false") [toL "it is false", toL "it is true"] (some 1)
    (by decide) ⟨toL "it is true", by decide, by decide⟩
  exact absurd this (by decide)

/-- Claim C9 (amended): `detect_true_false` activates on the first pair whose
affirmative or negative word occurs whole-word in the prompt; among the lines,
the FIRST line containing either word of the pair decides — index 0 when that
line contains the affirmative word (checked first), index 1 otherwise — and
when no line contains either word the correct index is `None`.  In the
orchestrator a truthy detector result is used as-is: answer detection is not
run, so such a block fails validation immediately. -/
theorem detect_true_false_amended :
    (∀ (qtext : Str) (lines : List Str),
      detect_true_false qtext lines =
        (TRUE_FALSE_SETS.find? (fun tf =>
            containsWord tf.1 qtext || containsWord tf.2 qtext)).map
          (fun tf => ([capitalize tf.1, capitalize tf.2],
            (lines.find? (fun ln => containsWord tf.1 ln || containsWord tf.2 ln)).map
              (fun ln => if containsWord tf.1 ln then 0 else 1)))) ∧
    (∀ (lines : List Str) (opts : List Str) (c : Option Nat),
      resolveTF lines (some (opts, c)) = (opts, c.map (fun n => (n : Int)))) ∧
    resolveTF [toL "1. q", toL "Answer: a"]
        (some ([toL "True", toL "False"], none)) =
      ([toL "True", toL "False"], none) := by
  refine ⟨fun qtext lines => tfPairs_eq qtext lines TRUE_FALSE_SETS,
    fun lines opts c => rfl, by decide⟩

theorem optLetter_not_sp {c : Char} (h : isOptLetter c = true) : isSp c = false := by
  simp only [isOptLetter, Bool.or_eq_true, Bool.and_eq_true, decide_eq_true_eq] at h
  simp only [isSp, Bool.or_eq_false_iff, decide_eq_false_iff_not]
  omega

theorem dropWhile_all_append {w x : Str} (hw : ∀ c ∈ w, isSp c = true) {c1 : Char}
    (hc : isSp c1 = false) : (w ++ c1 :: x).dropWhile isSp = c1 :: x := by
  induction w with
  | nil =>
    simp only [List.nil_append, List.dropWhile_cons, hc]
    simp
  | cons a w ih =>
    simp only [List.cons_append, List.dropWhile_cons, hw a (by simp)]
    simp only [if_true]
    exact ih (fun c hc2 => hw c (by simp [hc2]))

/-- Claim C8 (counterexample): the claim states that a line is recognized as
an option only when its leading letter is Latin A-H or one of the five
designated Arabic letters, followed by punctuation and a space, and that a
line beginning with any other letter is not extracted.  It is false: the
option pattern accepts the whole character range U+0623..U+0647, so the line
"ت) x" (ت is not among the five designated letters) is recognized and
extracted, and no space is required after the punctuation ("a)x" is also
recognized). -/
theorem option_line_claim_counterexample :
    ¬ (∀ l : Str, isOptionLine l = true ↔ specC8OptionLine l = true) := by
  intro h
  have h1 : isOptionLine (toL "ت) x") = true := by decide
  have h2 := (h (toL "ت) x")).mp h1
  exact absurd h2 (by decide)

/-- Claim C8 (amended): a line is recognized by the lettered-lines strategy
exactly when, after optional leading whitespace, it carries a letter in
A-H/a-h or anywhere in the Arabic range U+0623..U+0647, then one of the four
punctuation marks, then at least one further character not all line feeds; no
space is required after the punctuation.  A further conjunct records the
consequence for `extract_options`: such a line is extracted (here with its
option text cleaned), while lines outside the pattern — for example one led
by a Latin letter past H — are not. -/
theorem option_line_amended :
    (∀ l : Str, isOptionLine l = true ↔
      ∃ w c1 c2 r, l = w ++ c1 :: c2 :: r ∧ (∀ c ∈ w, isSp c = true) ∧
        isOptLetter c1 = true ∧ isPunct4 c2 = true ∧ ∃ c ∈ r, c ≠ '\n') ∧
    extract_options [toL "ت) x", toL "i) y"] = ([toL "x"], none) := by
  constructor
  · intro l
    constructor
    · intro h
      unfold isOptionLine at h
      rcases hd : l.dropWhile isSp with _ | ⟨c1, tl⟩
      · rw [hd] at h
        simp at h
      · rcases tl with _ | ⟨c2, r⟩
        · rw [hd] at h
          simp at h
        · rw [hd] at h
          simp only [Bool.and_eq_true] at h
          obtain ⟨⟨h1, h2⟩, h3⟩ := h
          refine ⟨l.takeWhile isSp, c1, c2, r, ?_, ?_, h1, h2, ?_⟩
          · rw [← hd, List.takeWhile_append_dropWhile]
          · intro c hc
            exact List.mem_takeWhile_imp hc
          · simpa using h3
    · rintro ⟨w, c1, c2, r, rfl, hw, h1, h2, h3⟩
      unfold isOptionLine
      rw [dropWhile_all_append hw (optLetter_not_sp h1)]
      simp only [h1, h2, Bool.and_eq_true, true_and]
      simpa using h3
  · decide

theorem findQSAux_ge_pos :
    ∀ (fuel : Nat) (l : Str) (pos : Nat) (atLS : Bool) (q e : Nat),
      (q, e) ∈ findQSAux fuel l pos atLS → pos ≤ q := by
  intro fuel
  induction fuel with
  | zero =>
    intro l pos atLS q e h
    cases l <;> simp [findQSAux] at h
  | succ fuel ih =>
    intro l pos atLS q e h
    cases l with
    | nil => simp [findQSAux] at h
    | cons c rest =>
      simp only [findQSAux] at h
      cases atLS with
      | false =>
        simp only [Bool.false_eq_true, if_false] at h
        have := ih rest (pos + 1) (c == '\n') q e h
        omega
      | true =>
        simp only [if_true] at h
        rcases hq : qsLen (c :: rest) with _ | n
        · simp only [hq] at h
          have := ih rest (pos + 1) (c == '\n') q e h
          omega
        · simp only [hq] at h
          rcases List.mem_cons.1 h with h1 | h2
          · cases h1
            omega
          · have := ih ((c :: rest).drop n) (pos + n)
              ((c :: rest).get? (n - 1) == some '\n') q e h2
            omega

theorem qsLen_nil : qsLen [] = none := rfl

theorem findQSAux_mem_iff (s : Str) :
    ∀ (fuel : Nat) (l : Str) (pos : Nat) (atLS : Bool),
      l = s.drop pos → l.length ≤ fuel →
      (atLS = true ↔ (pos = 0 ∨ s.get? (pos - 1) = some '\n')) →
      ∀ p, p ∈ (findQSAux fuel l pos atLS).map Prod.fst ↔
        (pos ≤ p ∧ (p = 0 ∨ s.get? (p - 1) = some '\n') ∧
         (qsLen (s.drop p)).isSome ∧
         ∀ q e, (q, e) ∈ findQSAux fuel l pos atLS → q < p → e ≤ p) := by
  intro fuel
  induction fuel with
  | zero =>
    intro l pos atLS hdrop hlen hals p
    have hnil : l = [] := List.eq_nil_of_length_eq_zero (by omega)
    subst hnil
    constructor
    · intro h
      simp [findQSAux] at h
    · rintro ⟨hpos, -, hsome, -⟩
      have h1 : s.length ≤ pos := by
        have := congrArg List.length hdrop
        simp [List.length_drop] at this
        omega
      have h2 : s.drop p = [] := List.drop_eq_nil_of_le (by omega)
      rw [h2, qsLen_nil] at hsome
      simp at hsome
  | succ fuel ih =>
    intro l pos atLS hdrop hlen hals p
    cases l with
    | nil =>
      constructor
      · intro h
        simp [findQSAux] at h
      · rintro ⟨hpos, -, hsome, -⟩
        have h1 : s.length ≤ pos := by
          have := congrArg List.length hdrop
          simp [List.length_drop] at this
          omega
        have h2 : s.drop p = [] := List.drop_eq_nil_of_le (by omega)
        rw [h2, qsLen_nil] at hsome
        simp at hsome
    | cons c rest =>
      have hc : s.get? pos = some c := by
        have := List.get?_drop s pos 0
        rw [← hdrop] at this
        simpa using this.symm
      have hrest : rest = s.drop (pos + 1) := by
        have h1 : (s.drop pos).drop 1 = s.drop (pos + 1) := List.drop_drop 1 pos s
        rw [← hdrop] at h1
        simpa using h1
      have hlen2 : rest.length ≤ fuel := by
        simp only [List.length_cons] at hlen
        omega
      have hals2 : (c == '\n') = true ↔ (pos + 1 = 0 ∨ s.get? (pos + 1 - 1) = some '\n') := by
        simp only [Nat.add_sub_cancel, hc, beq_iff_eq]
        constructor
        · intro h
          exact Or.inr (by rw [h])
        · rintro (h | h)
          · omega
          · injection h
      cases atLS with
      | false =>
        have hnls : ¬ (pos = 0 ∨ s.get? (pos - 1) = some '\n') := by
          intro hcon
          exact absurd (hals.mpr hcon) (by simp)
        have hred : findQSAux (fuel + 1) (c :: rest) pos false =
            findQSAux fuel rest (pos + 1) (c == '\n') := by
          simp [findQSAux]
        rw [hred]
        rw [ih rest (pos + 1) (c == '\n') hrest hlen2 hals2 p]
        constructor
        · rintro ⟨h1, h2, h3, h4⟩
          exact ⟨by omega, h2, h3, h4⟩
        · rintro ⟨h1, h2, h3, h4⟩
          have hne : p ≠ pos := by
            intro hcon
            subst hcon
            exact hnls h2
          exact ⟨by omega, h2, h3, h4⟩
      | true =>
        rcases hq : qsLen (c :: rest) with _ | n
        · have hnsome : ¬ (qsLen (s.drop pos)).isSome := by
            rw [← hdrop, hq]
            simp
          have hred : findQSAux (fuel + 1) (c :: rest) pos true =
              findQSAux fuel rest (pos + 1) (c == '\n') := by
            simp [findQSAux, hq]
          rw [hred]
          rw [ih rest (pos + 1) (c == '\n') hrest hlen2 hals2 p]
          constructor
          · rintro ⟨h1, h2, h3, h4⟩
            exact ⟨by omega, h2, h3, h4⟩
          · rintro ⟨h1, h2, h3, h4⟩
            have hne : p ≠ pos := by
              intro hcon
              subst hcon
              exact hnsome h3
            exact ⟨by omega, h2, h3, h4⟩
        · have hn1 : 1 ≤ n ∧ n ≤ (c :: rest).length := qsLen_pos hq
          have hqs : qsLen (s.drop pos) = some n := by
            rw [← hdrop]
            exact hq
          have hdropn : (c :: rest).drop n = s.drop (pos + n) := by
            have h1 : (s.drop pos).drop n = s.drop (pos + n) := List.drop_drop n pos s
            rw [← hdrop] at h1
            exact h1
          have hlen3 : ((c :: rest).drop n).length ≤ fuel := by
            simp only [List.length_drop, List.length_cons]
            simp only [List.length_cons] at hlen
            omega
          have hget : (c :: rest).get? (n - 1) = s.get? (pos + n - 1) := by
            have h1 := List.get?_drop s pos (n - 1)
            rw [← hdrop] at h1
            rw [h1]
            congr 1
            omega
          have hals3 : ((c :: rest).get? (n - 1) == some '\n') = true ↔
              (pos + n = 0 ∨ s.get? (pos + n - 1) = some '\n') := by
            rw [hget, beq_iff_eq]
            constructor
            · intro h
              exact Or.inr h
            · rintro (h | h)
              · omega
              · exact h
          have hred : findQSAux (fuel + 1) (c :: rest) pos true =
              (pos, pos + n) :: findQSAux fuel ((c :: rest).drop n) (pos + n)
                ((c :: rest).get? (n - 1) == some '\n') := by
            simp [findQSAux, hq]
          rw [hred]
          have IH := ih ((c :: rest).drop n) (pos + n)
            ((c :: rest).get? (n - 1) == some '\n') hdropn hlen3 hals3 p
          have hTge : ∀ q e, (q, e) ∈ findQSAux fuel ((c :: rest).drop n) (pos + n)
              ((c :: rest).get? (n - 1) == some '\n') → pos + n ≤ q :=
            fun q e hm => findQSAux_ge_pos fuel _ (pos + n) _ q e hm
          constructor
          · intro h
            rcases List.mem_map.1 h with ⟨⟨q0, e0⟩, hmem, hfst⟩
            simp only at hfst
            subst hfst
            rcases List.mem_cons.1 hmem with h1 | h1
            · obtain ⟨rfl, -⟩ : q0 = pos ∧ e0 = pos + n := by
                injection h1 with h1a h1b
                exact ⟨h1a, h1b⟩
              refine ⟨Nat.le_refl _, hals.mp rfl, by rw [hqs]; simp, ?_⟩
              intro q e hm hlt
              rcases List.mem_cons.1 hm with h2 | h2
              · injection h2 with h2a h2b
                omega
              · have := hTge q e h2
                omega
            · have hmap : q0 ∈ (findQSAux fuel ((c :: rest).drop n) (pos + n)
                  ((c :: rest).get? (n - 1) == some '\n')).map Prod.fst :=
                List.mem_map.2 ⟨(q0, e0), h1, rfl⟩
              obtain ⟨hge, hLS, hsome, hcovT⟩ := IH.mp hmap
              refine ⟨by omega, hLS, hsome, ?_⟩
              intro q e hm hlt
              rcases List.mem_cons.1 hm with h2 | h2
              · injection h2 with h2a h2b
                omega
              · exact hcovT q e h2 hlt
          · rintro ⟨hpos, hLS, hsome, hcov⟩
            by_cases hpp : p = pos
            · subst hpp
              exact List.mem_map.2 ⟨(p, p + n), List.mem_cons_self _ _, rfl⟩
            · have hhead : pos + n ≤ p :=
                hcov pos (pos + n) (List.mem_cons_self _ _) (by omega)
              have hmap := IH.mpr ⟨hhead, hLS, hsome,
                fun q e hm hlt => hcov q e (List.mem_cons_of_mem _ hm) hlt⟩
              rcases List.mem_map.1 hmap with ⟨⟨q0, e0⟩, hmem, hfst⟩
              exact List.mem_map.2 ⟨(q0, e0), List.mem_cons_of_mem _ hmem, hfst⟩

/-- Claim C7 (counterexample): the claim states that the segmenter's markers
are exactly the line starts that carry digits immediately followed by one of
`. ) - :` and a space.  It is false: `QUESTION_START_RE` requires no space
after the punctuation (and allows whitespace between the digits and the
punctuation), so in "1)a" position 0 is a marker although no space follows
the parenthesis. -/
theorem question_marker_claim_counterexample :
    ¬ (∀ (s : Str) (p : Nat),
        p ∈ (findQS s).map Prod.fst ↔
          ((p = 0 ∨ s.get? (p - 1) = some '\n') ∧ specC7Pat (s.drop p) = true)) := by
  intro h
  have h1 : (0 : Nat) ∈ (findQS (toL "1)a")).map Prod.fst := by decide
  have h2 := (h (toL "1)a") 0).mp h1
  exact absurd h2.2 (by decide)

/-- Claim C7 (amended): a position is a question-start marker exactly when it
is at a line start (offset zero or right after a line feed), the
`QUESTION_START_RE` pattern — greedy whitespace, one or more digits, greedy
whitespace, one of the four punctuation marks, greedy whitespace, with no
space required after the punctuation — matches there (`qsLen`), and the
position is not covered by an earlier marker's non-overlapping matched span. -/
theorem question_marker_characterization (s : Str) (p : Nat) :
    p ∈ (findQS s).map Prod.fst ↔
      ((p = 0 ∨ s.get? (p - 1) = some '\n') ∧ (qsLen (s.drop p)).isSome ∧
       ∀ q e, (q, e) ∈ findQS s → q < p → e ≤ p) := by
  have h := findQSAux_mem_iff s s.length s 0 true (by simp) (Nat.le_refl _) (by simp) p
  unfold findQS
  rw [h]
  constructor
  · rintro ⟨-, h2, h3, h4⟩
    exact ⟨h2, h3, h4⟩
  · rintro ⟨h2, h3, h4⟩
    exact ⟨Nat.zero_le _, h2, h3, h4⟩

theorem mapEqSelf {φ : Char → Char} {l : Str} (h : ∀ c ∈ l, φ c = c) : l.map φ = l := by
  induction l with
  | nil => rfl
  | cons c rest ih =>
    simp only [List.map_cons, h c (by simp)]
    rw [ih (fun d hd => h d (by simp [hd]))]

theorem mem_crlf1 {c : Char} : ∀ {l : Str}, c ∈ crlf1 l → c ∈ l ∨ c = '\n' := by
  intro l
  induction l using crlf1.induct with
  | case1 => intro h; simp [crlf1] at h
  | case2 d => intro h; simp only [crlf1] at h; exact Or.inl h
  | case3 a d rest hcond ih =>
    intro h
    simp only [crlf1, hcond, if_true] at h
    rcases List.mem_cons.1 h with h1 | h1
    · exact Or.inr h1
    · rcases ih h1 with h2 | h2
      · exact Or.inl (by simp [h2])
      · exact Or.inr h2
  | case4 a d rest hcond ih =>
    intro h
    simp only [crlf1, hcond, if_false] at h
    rcases List.mem_cons.1 h with h1 | h1
    · exact Or.inl (by simp [h1])
    · rcases ih h1 with h2 | h2
      · exact Or.inl (by simp [h2])
      · exact Or.inr h2

theorem mem_nfkc {c : Char} : ∀ {l : Str}, c ∈ nfkc l → c ∈ l ∨ c = ' ' ∨ c.toNat = 0xe9 := by
  intro l
  induction l using nfkc.induct with
  | case1 => intro h; simp [nfkc] at h
  | case2 d =>
    intro h
    simp only [nfkc, List.mem_singleton] at h
    subst h
    split
    · exact Or.inr (Or.inl rfl)
    · exact Or.inl (by simp)
  | case3 a d rest hcond ih =>
    intro h
    simp only [nfkc, hcond, if_true] at h
    rcases List.mem_cons.1 h with h1 | h1
    · subst h1
      exact Or.inr (Or.inr rfl)
    · rcases ih h1 with h2 | h2
      · exact Or.inl (by simp [h2])
      · exact Or.inr h2
  | case4 a d rest hcond ih =>
    intro h
    simp only [nfkc, hcond, if_false] at h
    rcases List.mem_cons.1 h with h1 | h1
    · by_cases ha : a.toNat = 0xa0
      · rw [if_pos ha] at h1
        exact Or.inr (Or.inl h1)
      · rw [if_neg ha] at h1
        exact Or.inl (by simp [h1])
    · rcases ih h1 with h2 | h2
      · exact Or.inl (by simp [h2])
      · exact Or.inr h2

theorem mem_strip {c : Char} {l : Str} (h : c ∈ strip l) : c ∈ l := by
  unfold strip at h
  rw [List.mem_reverse] at h
  have h2 := (List.dropWhile_sublist _).subset h
  rw [List.mem_reverse] at h2
  exact (List.dropWhile_sublist _).subset h2

theorem crlf1_eq_self : ∀ {l : Str}, (∀ c ∈ l, c ≠ '\r') → crlf1 l = l := by
  intro l
  induction l using crlf1.induct with
  | case1 => intro _; rfl
  | case2 d => intro _; rfl
  | case3 a d rest hcond ih =>
    intro h
    simp only [Bool.and_eq_true, decide_eq_true_eq] at hcond
    exact absurd hcond.1 (h a (by simp))
  | case4 a d rest hcond ih =>
    intro h
    simp only [crlf1, hcond, if_false]
    rw [ih (fun x hx => h x (by simp at hx ⊢; tauto))]
    simp

theorem crlf_eq_self {l : Str} (h : ∀ c ∈ l, c ≠ '\r') : crlf l = l := by
  unfold crlf
  rw [crlf1_eq_self h]
  exact mapEqSelf (fun c hc => by simp [h c hc])

theorem dropWhileEqDrop (p : Char → Bool) : ∀ l : Str,
    l.dropWhile p = l.drop (l.takeWhile p).length := by
  intro l
  induction l with
  | nil => rfl
  | cons c rest ih =>
    by_cases hc : p c
    · simp only [List.dropWhile_cons, List.takeWhile_cons, hc, if_true, List.length_cons]
      simpa using ih
    · simp only [List.dropWhile_cons, List.takeWhile_cons, hc, if_false]
      simp [hc]

theorem revDropRev_eq_take (p : Char → Bool) (l : Str) :
    ∃ m, m ≤ l.length ∧ (l.reverse.dropWhile p).reverse = l.take m := by
  set k := (l.reverse.takeWhile p).length with hk
  have hkle : k ≤ l.length := by
    have := l.reverse.takeWhile_sublist (p := p)
    have h2 := this.length_le
    simpa [hk] using h2
  refine ⟨l.length - k, by omega, ?_⟩
  rw [dropWhileEqDrop p l.reverse, ← hk]
  have := List.reverse_take (l := l) (n := l.length - k)
  have h3 : l.length - (l.length - k) = k := by omega
  rw [h3] at this
  rw [← this, List.reverse_reverse]

theorem head_dropWhile_not {p : Char → Bool} {l : Str} {c : Char}
    (h : (l.dropWhile p).head? = some c) : p c = false := by
  induction l with
  | nil => simp at h
  | cons a rest ih =>
    by_cases ha : p a
    · rw [List.dropWhile_cons, if_pos ha] at h
      exact ih h
    · rw [List.dropWhile_cons, if_neg ha] at h
      injection h with h
      subst h
      simpa using ha

theorem dropWhile_eq_self_of_head {p : Char → Bool} {l : Str}
    (h : ∀ c, l.head? = some c → p c = false) : l.dropWhile p = l := by
  cases l with
  | nil => rfl
  | cons c rest =>
    rw [List.dropWhile_cons, if_neg]
    simp [h c rfl]

theorem dw_of_revdwrev (p : Char → Bool) (X : Str) (hX : X.dropWhile p = X) :
    ((X.reverse.dropWhile p).reverse).dropWhile p = (X.reverse.dropWhile p).reverse := by
  obtain ⟨m, hm, htake⟩ := revDropRev_eq_take p X
  rw [htake]
  apply dropWhile_eq_self_of_head
  intro c hc
  cases m with
  | zero =>
    rw [List.take_zero] at hc
    simp at hc
  | succ m0 =>
    have hhead : X.head? = some c := by
      cases X with
      | nil =>
        rw [List.take_nil] at hc
        simp at hc
      | cons a rest =>
        simp only [List.take_succ_cons, List.head?_cons, Option.some.injEq] at hc ⊢
        exact hc
    rw [← hX] at hhead
    exact head_dropWhile_not hhead

theorem strip_idem (l : Str) : strip (strip l) = strip l := by
  unfold strip
  rw [show ((((l.dropWhile isSp).reverse.dropWhile isSp).reverse).dropWhile isSp) =
      (((l.dropWhile isSp).reverse.dropWhile isSp).reverse) from
      dw_of_revdwrev isSp (l.dropWhile isSp) (List.dropWhile_idempotent isSp l)]
  rw [List.reverse_reverse, List.dropWhile_idempotent]

theorem nfkc_eq_self : ∀ {l : Str}, (∀ c ∈ l, c.toNat ≠ 0xa0) → noEA l → nfkc l = l := by
  intro l
  induction l using nfkc.induct with
  | case1 => intro _ _; rfl
  | case2 d =>
    intro h _
    simp only [nfkc]
    rw [if_neg (h d (by simp))]
  | case3 a d rest hcond ih =>
    intro h hea
    simp only [Bool.and_eq_true, decide_eq_true_eq] at hcond
    exact absurd (hcond.2) (hea.1 hcond.1 d (by simp))
  | case4 a d rest hcond ih =>
    intro h hea
    have hred : nfkc (a :: d :: rest) =
        (if a.toNat = 0xa0 then ' ' else a) :: nfkc (d :: rest) := by
      simp [nfkc, hcond]
    rw [hred, if_neg (h a (by simp))]
    rw [ih (fun x hx => h x (by simp at hx ⊢; tauto)) hea.2]

theorem nfkc_noNbsp : ∀ {l : Str}, ∀ c ∈ nfkc l, c.toNat ≠ 0xa0 := by
  intro l
  induction l using nfkc.induct with
  | case1 => simp [nfkc]
  | case2 d =>
    intro c hc
    simp only [nfkc, List.mem_singleton] at hc
    subst hc
    split
    · decide
    · assumption
  | case3 a d rest hcond ih =>
    intro c hc
    have hred : nfkc (a :: d :: rest) = Char.ofNat 0xe9 :: nfkc rest := by
      simp [nfkc, hcond]
    rw [hred] at hc
    rcases List.mem_cons.1 hc with h1 | h1
    · subst h1
      decide
    · exact ih c h1
  | case4 a d rest hcond ih =>
    intro c hc
    have hred : nfkc (a :: d :: rest) =
        (if a.toNat = 0xa0 then ' ' else a) :: nfkc (d :: rest) := by
      simp [nfkc, hcond]
    rw [hred] at hc
    rcases List.mem_cons.1 hc with h1 | h1
    · subst h1
      split
      · decide
      · assumption
    · exact ih c h1

theorem nfkc_head (d : Char) (rest : Str) :
    ∃ h, (nfkc (d :: rest)).head? = some h ∧
      (h = Char.ofNat 0xe9 ∨ h = ' ' ∨ h = d) := by
  cases rest with
  | nil =>
    refine ⟨if d.toNat = 0xa0 then ' ' else d, by simp [nfkc], ?_⟩
    split
    · exact Or.inr (Or.inl rfl)
    · exact Or.inr (Or.inr rfl)
  | cons e rest2 =>
    by_cases hcond : (d = 'e' && decide (e.toNat = 0x301)) = true
    · exact ⟨Char.ofNat 0xe9, by simp [nfkc, hcond], Or.inl rfl⟩
    · refine ⟨if d.toNat = 0xa0 then ' ' else d, ?_, ?_⟩
      · have hred : nfkc (d :: e :: rest2) =
            (if d.toNat = 0xa0 then ' ' else d) :: nfkc (e :: rest2) := by
          simp [nfkc, hcond]
        rw [hred]
        simp
      · split
        · exact Or.inr (Or.inl rfl)
        · exact Or.inr (Or.inr rfl)

theorem nfkc_noEA : ∀ {l : Str}, noEA (nfkc l) := by
  intro l
  induction l using nfkc.induct with
  | case1 => trivial
  | case2 d =>
    show noEA [if d.toNat = 0xa0 then ' ' else d]
    exact ⟨fun _ d' hd' => by simp at hd', trivial⟩
  | case3 a d rest hcond ih =>
    have hred : nfkc (a :: d :: rest) = Char.ofNat 0xe9 :: nfkc rest := by
      simp [nfkc, hcond]
    rw [hred]
    refine ⟨fun he => ?_, ih⟩
    exact absurd (congrArg Char.toNat he) (by decide)
  | case4 a d rest hcond ih =>
    have hred : nfkc (a :: d :: rest) =
        (if a.toNat = 0xa0 then ' ' else a) :: nfkc (d :: rest) := by
      simp [nfkc, hcond]
    rw [hred]
    refine ⟨fun he d' hd' ha' => ?_, ih⟩
    have ha : a = 'e' := by
      by_cases h0 : a.toNat = 0xa0
      · rw [if_pos h0] at he
        exact absurd he (by decide)
      · rwa [if_neg h0] at he
    subst ha
    simp only [Bool.and_eq_true, decide_eq_true_eq] at hcond
    have hd : d.toNat ≠ 0x301 := fun hx => hcond ⟨by trivial, hx⟩
    obtain ⟨h0, hh, hcases⟩ := nfkc_head d rest
    rw [hh] at hd'
    injection hd' with hd'
    subst hd'
    rcases hcases with h1 | h1 | h1
    · rw [h1] at ha'
      exact absurd ha' (by decide)
    · rw [h1] at ha'
      exact absurd ha' (by decide)
    · rw [h1] at ha'
      exact hd ha'

theorem noEA_map {φ : Char → Char} (he : ∀ c, φ c = 'e' → c = 'e')
    (ha : ∀ c, (φ c).toNat = 0x301 → c.toNat = 0x301) :
    ∀ {l : Str}, noEA l → noEA (l.map φ) := by
  intro l
  induction l with
  | nil => intro _; trivial
  | cons c rest ih =>
    intro h
    refine ⟨fun hce d' hd' ha' => ?_, ih h.2⟩
    rw [List.head?_map] at hd'
    rcases hmap : rest.head? with _ | d0
    · rw [hmap] at hd'
      simp at hd'
    · rw [hmap] at hd'
      simp only [Option.map_some', Option.some.injEq] at hd'
      subst hd'
      exact h.1 (he c hce) d0 hmap (ha d0 ha')

theorem crlf1_head (d : Char) (rest : Str) :
    ∃ h, (crlf1 (d :: rest)).head? = some h ∧ (h = '\n' ∨ h = d) := by
  cases rest with
  | nil => exact ⟨d, by simp [crlf1], Or.inr rfl⟩
  | cons e rest2 =>
    by_cases hcond : (d = '\r' && e = '\n') = true
    · exact ⟨'\n', by simp [crlf1, hcond], Or.inl rfl⟩
    · refine ⟨d, ?_, Or.inr rfl⟩
      have hred : crlf1 (d :: e :: rest2) = d :: crlf1 (e :: rest2) := by
        simp [crlf1, hcond]
      rw [hred]
      simp

theorem noEA_crlf1 : ∀ {l : Str}, noEA l → noEA (crlf1 l) := by
  intro l
  induction l using crlf1.induct with
  | case1 => intro _; trivial
  | case2 d => intro h; exact h
  | case3 a d rest hcond ih =>
    intro h
    have hred : crlf1 (a :: d :: rest) = '\n' :: crlf1 rest := by
      simp [crlf1, hcond]
    rw [hred]
    refine ⟨fun he => absurd he (by decide), ih h.2.2⟩
  | case4 a d rest hcond ih =>
    intro h
    have hred : crlf1 (a :: d :: rest) = a :: crlf1 (d :: rest) := by
      simp [crlf1, hcond]
    rw [hred]
    refine ⟨fun he d' hd' ha' => ?_, ih h.2⟩
    obtain ⟨h0, hh, hcases⟩ := crlf1_head d rest
    rw [hh] at hd'
    injection hd' with hd'
    subst hd'
    rcases hcases with h1 | h1
    · rw [h1] at ha'
      exact absurd ha' (by decide)
    · rw [h1] at ha'
      exact h.1 he d (by simp) ha'

theorem head?_take_some {l : Str} {n : Nat} {d : Char}
    (h : (l.take n).head? = some d) : l.head? = some d := by
  cases n with
  | zero => simp at h
  | succ n0 =>
    cases l with
    | nil => simp at h
    | cons c rest => simpa using h

theorem noEA_take : ∀ {l : Str} {n : Nat}, noEA l → noEA (l.take n) := by
  intro l
  induction l with
  | nil =>
    intro n _
    rw [List.take_nil]
    trivial
  | cons c rest ih =>
    intro n h
    cases n with
    | zero => trivial
    | succ n0 =>
      rw [List.take_succ_cons]
      exact ⟨fun hce d' hd' => h.1 hce d' (head?_take_some hd'), ih h.2⟩

theorem noEA_drop : ∀ {l : Str} {n : Nat}, noEA l → noEA (l.drop n) := by
  intro l
  induction l with
  | nil =>
    intro n _
    rw [List.drop_nil]
    trivial
  | cons c rest ih =>
    intro n h
    cases n with
    | zero => exact h
    | succ n0 =>
      rw [List.drop_succ_cons]
      exact ih h.2

theorem noEA_strip {l : Str} (h : noEA l) : noEA (strip l) := by
  unfold strip
  obtain ⟨m, hm, htake⟩ := revDropRev_eq_take isSp (l.dropWhile isSp)
  rw [htake]
  apply noEA_take
  rw [dropWhileEqDrop]
  exact noEA_drop h

theorem toNat_ofNat_valid (n : Nat) (h : n.isValidChar) : (Char.ofNat n).toNat = n := by
  unfold Char.ofNat
  simp only [Char.ofNatAux, h, dif_pos]
  simp [Char.toNat, UInt32.toNat, BitVec.toNat_ofNatLt]

theorem digMap_cases (c : Char) :
    digMap c = c ∨ (48 ≤ (digMap c).toNat ∧ (digMap c).toNat ≤ 57) := by
  unfold digMap
  split
  · rename_i h
    simp only [Bool.and_eq_true, decide_eq_true_eq] at h
    right
    rw [toNat_ofNat_valid _ (Or.inl (by omega))]
    omega
  · exact Or.inl rfl

theorem mem_zwspSub {c : Char} {l : Str} (h : c ∈ zwspSub l) :
    c ∈ l ∧ c.toNat ≠ 0x200b := by
  unfold zwspSub at h
  refine ⟨List.mem_of_mem_filter h, ?_⟩
  have := List.of_mem_filter h
  simpa using this

theorem mem_digSub {c : Char} {l : Str} (h : c ∈ digSub l) : ∃ d ∈ l, c = digMap d := by
  unfold digSub at h
  rcases List.mem_map.1 h with ⟨d, hd, he⟩
  exact ⟨d, hd, he.symm⟩

theorem mem_nbspSub {c : Char} {l : Str} (h : c ∈ nbspSub l) :
    ∃ d ∈ l, c = if d.toNat = 0xa0 then ' ' else d := by
  unfold nbspSub at h
  rcases List.mem_map.1 h with ⟨d, hd, he⟩
  exact ⟨d, hd, he.symm⟩

theorem mem_crlf_ne_cr {c : Char} {l : Str} (h : c ∈ crlf l) : c ≠ '\r' := by
  unfold crlf at h
  rcases List.mem_map.1 h with ⟨d, _, he⟩
  intro hc
  rw [hc] at he
  by_cases hd : d = '\r' <;> simp [hd] at he

theorem mem_crlf_src {c : Char} {l : Str} (h : c ∈ crlf l) :
    c ∈ l ∨ c = '\n' := by
  unfold crlf at h
  rcases List.mem_map.1 h with ⟨d, hd, he⟩
  rcases mem_crlf1 hd with h1 | h1
  · by_cases hdc : d = '\r'
    · right
      rw [← he, hdc]
      simp
    · left
      rw [← he, if_neg hdc]
      exact h1
  · right
    rw [← he, h1]
    simp

theorem normalize_text_noCR {x : Str} : ∀ c ∈ normalize_text x, c ≠ '\r' := by
  intro c hc
  unfold normalize_text at hc
  have h1 := mem_strip hc
  obtain ⟨d, hd, hcd⟩ := mem_digSub h1
  obtain ⟨hd2, -⟩ := mem_zwspSub hd
  obtain ⟨e, he, hde⟩ := mem_nbspSub hd2
  have he2 := mem_crlf_ne_cr he
  intro hcon
  rw [hcon] at hcd
  rcases digMap_cases d with h2 | h2
  · rw [h2] at hcd
    rw [← hcd] at hde
    split at hde
    · exact absurd hde (by decide)
    · exact he2 hde.symm
  · rw [← hcd] at h2
    have : ('\r').toNat = 13 := by decide
    omega

theorem normalize_text_noNbsp {x : Str} : ∀ c ∈ normalize_text x, c.toNat ≠ 0xa0 := by
  intro c hc
  unfold normalize_text at hc
  have h1 := mem_strip hc
  obtain ⟨d, hd, hcd⟩ := mem_digSub h1
  obtain ⟨hd2, -⟩ := mem_zwspSub hd
  obtain ⟨e, he, hde⟩ := mem_nbspSub hd2
  have hdn : d.toNat ≠ 0xa0 := by
    rw [hde]
    split
    · decide
    · assumption
  rcases digMap_cases d with h2 | h2
  · rw [hcd, h2]
    exact hdn
  · rw [hcd]
    omega

theorem normalize_text_noZwsp {x : Str} : ∀ c ∈ normalize_text x, c.toNat ≠ 0x200b := by
  intro c hc
  unfold normalize_text at hc
  have h1 := mem_strip hc
  obtain ⟨d, hd, hcd⟩ := mem_digSub h1
  obtain ⟨-, hdz⟩ := mem_zwspSub hd
  rcases digMap_cases d with h2 | h2
  · rw [hcd, h2]
    exact hdz
  · rw [hcd]
    omega

theorem normalize_text_noAda {x : Str} :
    ∀ c ∈ normalize_text x, ¬(0x660 ≤ c.toNat ∧ c.toNat ≤ 0x669) := by
  intro c hc
  unfold normalize_text at hc
  have h1 := mem_strip hc
  obtain ⟨d, hd, hcd⟩ := mem_digSub h1
  subst hcd
  unfold digMap
  split
  · rename_i h
    simp only [Bool.and_eq_true, decide_eq_true_eq] at h
    rw [toNat_ofNat_valid _ (Or.inl (by omega))]
    omega
  · rename_i h
    simp only [Bool.and_eq_true, decide_eq_true_eq] at h
    intro hcon
    exact h ⟨hcon.1, hcon.2⟩

theorem zwspSub_eq_self {l : Str} (h : ∀ c ∈ l, c.toNat ≠ 0x200b) : zwspSub l = l := by
  unfold zwspSub
  apply List.filter_eq_self.2
  intro c hc
  simpa using h c hc

theorem nbspSub_eq_self {l : Str} (h : ∀ c ∈ l, c.toNat ≠ 0xa0) : nbspSub l = l := by
  unfold nbspSub
  exact mapEqSelf (fun c hc => if_neg (h c hc))

theorem digSub_eq_self {l : Str} (h : ∀ c ∈ l, ¬(0x660 ≤ c.toNat ∧ c.toNat ≤ 0x669)) :
    digSub l = l := by
  unfold digSub
  apply mapEqSelf
  intro c hc
  unfold digMap
  rw [if_neg]
  intro hcon
  simp only [Bool.and_eq_true, decide_eq_true_eq] at hcon
  exact h c hc hcon

theorem normalize_text_noEA {x : Str} (hz : ∀ c ∈ x, c.toNat ≠ 0x200b) :
    noEA (normalize_text x) := by
  have h1 : noEA (nfkc x) := nfkc_noEA
  have h2 : noEA (crlf (nfkc x)) := by
    unfold crlf
    apply noEA_map
    · intro c hc
      by_cases hd : c = '\r'
      · rw [if_pos hd] at hc
        exact absurd hc (by decide)
      · rwa [if_neg hd] at hc
    · intro c hc
      by_cases hd : c = '\r'
      · rw [if_pos hd] at hc
        exact absurd hc (by decide)
      · rwa [if_neg hd] at hc
    · exact noEA_crlf1 h1
  have h3 : noEA (nbspSub (crlf (nfkc x))) := by
    unfold nbspSub
    apply noEA_map
    · intro c hc
      by_cases hd : c.toNat = 0xa0
      · rw [if_pos hd] at hc
        exact absurd hc (by decide)
      · rwa [if_neg hd] at hc
    · intro c hc
      by_cases hd : c.toNat = 0xa0
      · rw [if_pos hd] at hc
        exact absurd hc (by decide)
      · rwa [if_neg hd] at hc
    · exact h2
  have hznb : ∀ c ∈ nbspSub (crlf (nfkc x)), c.toNat ≠ 0x200b := by
    intro c hc
    obtain ⟨e, he, hce⟩ := mem_nbspSub hc
    have he2 : e.toNat ≠ 0x200b := by
      rcases mem_crlf_src he with h4 | h4
      · rcases mem_nfkc h4 with h5 | h5 | h5
        · exact hz e h5
        · rw [h5]
          decide
        · omega
      · rw [h4]
        decide
    rw [hce]
    split
    · decide
    · exact he2
  have h4 : zwspSub (nbspSub (crlf (nfkc x))) = nbspSub (crlf (nfkc x)) :=
    zwspSub_eq_self hznb
  have h5 : noEA (digSub (zwspSub (nbspSub (crlf (nfkc x))))) := by
    rw [h4]
    unfold digSub
    apply noEA_map
    · intro c hc
      unfold digMap at hc
      split at hc
      · rename_i hcc
        simp only [Bool.and_eq_true, decide_eq_true_eq] at hcc
        have := toNat_ofNat_valid (48 + (c.toNat - 0x660)) (Or.inl (by omega))
        rw [hc] at this
        exact absurd this (by intro h6; simp at h6; omega)
      · exact hc
    · intro c hc
      unfold digMap at hc
      split at hc
      · rename_i hcc
        simp only [Bool.and_eq_true, decide_eq_true_eq] at hcc
        rw [toNat_ofNat_valid (48 + (c.toNat - 0x660)) (Or.inl (by omega))] at hc
        omega
      · exact hc
    · exact h3
  exact noEA_strip h5

/-- Claim C6 (counterexample): normalization is not idempotent.  For the
input "e" + zero-width space + combining acute accent, the first pass leaves
"e" and the accent separated by the zero-width space during NFKC (which
blocks their canonical composition), then removes the zero-width space; the
second pass composes the now-adjacent pair to e-acute, changing the string. -/
theorem normalize_idempotence_counterexample :
    ¬ (∀ x : Str, normalize_text (normalize_text x) = normalize_text x) := by
  intro h
  have := h ['e', Char.ofNat 0x200b, Char.ofNat 0x301]
  exact absurd this (by decide)

/-- Claim C6 (amended): normalization is idempotent on every input that
contains no zero-width space U+200B — removal of that character is the only
operation of the pipeline that can juxtapose previously separated characters
and so create new NFKC compositions. -/
theorem normalize_idempotent_amended (x : Str) (hz : ∀ c ∈ x, c.toNat ≠ 0x200b) :
    normalize_text (normalize_text x) = normalize_text x := by
  have hnb := normalize_text_noNbsp (x := x)
  have hea := normalize_text_noEA hz
  have hcr := normalize_text_noCR (x := x)
  have hzw := normalize_text_noZwsp (x := x)
  have hada := normalize_text_noAda (x := x)
  show strip (digSub (zwspSub (nbspSub (crlf (nfkc (normalize_text x)))))) = normalize_text x
  rw [nfkc_eq_self hnb hea, crlf_eq_self hcr, nbspSub_eq_self hnb,
    zwspSub_eq_self hzw, digSub_eq_self hada]
  show strip (strip (digSub (zwspSub (nbspSub (crlf (nfkc x)))))) = normalize_text x
  rw [strip_idem]
  rfl

/-- Witness for the amended C6 at a concrete zero-width-space-free input. -/
theorem normalize_idempotent_amended_witness :
    (∀ c ∈ toL " 1. hello ", c.toNat ≠ 0x200b) ∧
    normalize_text (normalize_text (toL " 1. hello ")) = normalize_text (toL " 1. hello ") :=
  ⟨by decide, normalize_idempotent_amended (toL " 1. hello ") (by decide)⟩
